import Mathlib

/-!
# artemisia.c : in-degree test of a random functional graph

Shallow embedding of `src/artemisia.c`.

* Machine integers are natural numbers reduced modulo `2^8`, `2^32`, `2^64`
  where the C type truncates.
* `stdin` is a list of bytes; the counter array `indegree` and the table `LUT`
  are lists of natural numbers (`LUT[s][b]` sits at flat index `256*s + b`).
* The `do … while` loops are run by `doWhile` with explicit fuel; assertion
  failures and accesses outside an array are `Except` errors.
* `unsigned stream;` is declared without initialiser: its first content is the
  parameter `stream0` of the decode pass.
* Floating point is not modelled bit for bit: the goodness-of-fit arithmetic is
  written over an arbitrary field, with `M_E` and `gsl_cdf_chisq_P` supplied by a
  `Numerics` record; `realMath` is its instance over the real numbers. The
  constants of `empirical_limits` are the stored binary64 values of their
  literals, and `verdict` compares the value of `pval` with them exactly.
* The platform assertions of lines 58-59 (32-bit `unsigned`, little-endian host)
  are taken to hold and `calloc` (line 79) to succeed.
* Mode resolution (lines 60-77) is `resolve`; the C library functions `basename`
  and `atoi` are parameters of it (`Libc`). The passes take the resolved `bits`
  as argument, and `main` puts the two together.
* `doWhileTrace` lists the states on which a loop body runs, one per iteration.
-/

namespace Artemisia

/-! ## Machine model -/

/-- Ways in which a run stops before `return 0`. -/
inductive Err
  | outOfFuel
  | shortRead
  | outOfBounds
  | badSum
  deriving DecidableEq, Repr

/-- Outcomes of a run can be compared. -/
instance decEqExcept {α : Type} [DecidableEq α] : DecidableEq (Except Err α)
  | .ok a, .ok b =>
    if h : a = b then isTrue (by rw [h]) else isFalse (fun e => h (by cases e; rfl))
  | .error a, .error b =>
    if h : a = b then isTrue (by rw [h]) else isFalse (fun e => h (by cases e; rfl))
  | .ok _, .error _ => isFalse (fun e => by cases e)
  | .error _, .ok _ => isFalse (fun e => by cases e)

/-- One byte of the input stream. -/
abbrev Byte := Fin 256

/-- Conversion to `unsigned char`. -/
def u8 (x : Nat) : Nat := x % 256

/-- Conversion to `unsigned` (32 bits, asserted on line 58). -/
def u32 (x : Nat) : Nat := x % 2 ^ 32

/-- Conversion to `unsigned long long`. -/
def u64 (x : Nat) : Nat := x % 2 ^ 64

/-- Runs `do body while (cond)`: `body s` returns the next state and whether the
loop condition held. One unit of fuel is spent per iteration. -/
def doWhile {σ : Type} (body : σ → Except Err (σ × Bool)) : Nat → σ → Except Err σ
  | 0, _ => .error .outOfFuel
  | fuel + 1, s =>
    match body s with
    | .error e => .error e
    | .ok (s', true) => doWhile body fuel s'
    | .ok (s', false) => .ok s'

/-- Fuel handed to every loop of `main`: no loop of the program iterates more
than `2^32` times. -/
def loopFuel : Nat := 2 ^ 32

/-! ## Lines 82-88: the lookup table -/

/-- Reads `LUT[s][b]`. -/
def lutGet (t : List Nat) (s b : Nat) : Nat := t.getD (256 * s + b) 0

/-- Lines 84-87, the four stores of one iteration. -/
def lutBody (t : List Nat) (i : Nat) : List Nat :=
  let t := t.set i (u8 (if i &&& 3 < 3 then i + 1 else i))
  let t := t.set (256 + i) (u8 ((lutGet t 0 i <<< 2) ||| (lutGet t 0 i >>> 6)))
  let t := t.set (512 + i) (u8 ((lutGet t 0 i <<< 4) ||| (lutGet t 0 i >>> 4)))
  t.set (768 + i) (u8 ((lutGet t 0 i <<< 6) ||| (lutGet t 0 i >>> 2)))

/-- Lines 83-88: `do { ... } while(++i);` over the `unsigned char` index `i`.
The state is the pair of the table and `i`. -/
def lutStep (s : List Nat × Nat) : Except Err ((List Nat × Nat) × Bool) :=
  let t := lutBody s.1 s.2
  let i := u8 (s.2 + 1)
  .ok ((t, i), i != 0)

/-- Line 82 and the loop of lines 83-88, started on the table content `init`
(the array is not initialised by its declaration) with `i = 0`. -/
def buildLUTFrom (init : List Nat) : Except Err (List Nat × Nat) :=
  doWhile lutStep loopFuel (init, 0)

/-- The table as `main` builds it. -/
def buildLUT : Except Err (List Nat × Nat) := buildLUTFrom (List.replicate 1024 0)

/-- The array `LUT` once the loop of lines 83-88 has ended. -/
def LUT : List Nat :=
  match buildLUT with
  | .ok r => r.1
  | .error _ => []

/-- Closed form of line 84: the entry `LUT[0][b]`. -/
def lut0 (b : Nat) : Nat := u8 (if b &&& 3 < 3 then b + 1 else b)

/-- Closed form of lines 84-87: the entry `LUT[s][b]` for `s < 4`. -/
def lutVal (s b : Nat) : Nat :=
  match s with
  | 0 => lut0 b
  | 1 => u8 ((lut0 b <<< 2) ||| (lut0 b >>> 6))
  | 2 => u8 ((lut0 b <<< 4) ||| (lut0 b >>> 4))
  | _ => u8 ((lut0 b <<< 6) ||| (lut0 b >>> 2))

/-- The finished table written out entry by entry. -/
def lutTable : List Nat := (List.range 1024).map fun k => lutVal (k / 256) (k % 256)

/-! ## Lines 90-116: the decode pass -/

/-- State of the decode loops: the loop counter `state`, the sample word
`stream`, the counter array and the unread input. -/
structure Dec where
  state : Nat
  stream : Nat
  indegree : List Nat
  stdin : List Byte
  deriving DecidableEq, Repr

/-- Value of a byte sequence read least significant byte first. -/
def leValue : List Byte → Nat
  | [] => 0
  | b :: bs => b.val + 256 * leValue bs

/-- The call `getchar()` converted to `unsigned`: the next byte, or `EOF = -1`. -/
def getchar (stdin : List Byte) : Nat × List Byte :=
  match stdin with
  | [] => (u32 (2 ^ 32 - 1), [])
  | c :: rest => (c.val, rest)

/-- The call `fread(&stream, size, 1, stdin)` on a little-endian host: when
`size` bytes are available they replace the `size` low-order bytes of `stream`
and the call returns 1; otherwise it returns 0. The bytes of `stream` above
`size` are not written. -/
def fread (stream size : Nat) (stdin : List Byte) : Nat × Nat × List Byte :=
  if size ≤ stdin.length then
    (1, u32 (stream / 256 ^ size * 256 ^ size + leValue (stdin.take size)), stdin.drop size)
  else
    (0, stream, [])

/-- The statement `indegree[stream>>2] = LUT[stream%4][indegree[stream>>2]];`. -/
def bump (lut : List Nat) (indegree : List Nat) (stream : Nat) : Except Err (List Nat) :=
  if h : stream >>> 2 < indegree.length then
    .ok (indegree.set (stream >>> 2) (lutGet lut (stream % 4) (indegree.get ⟨stream >>> 2, h⟩)))
  else
    .error .outOfBounds

/-- The loop conditions `state++ < 0xFF`, `state++ < 0xFFFF`, `state++ < 0xFFFFFF`
and `++state`: the new value of `state` and whether the loop goes on. -/
def loopCond (bits state : Nat) : Nat × Bool :=
  match bits with
  | 8 => (u32 (state + 1), decide (state < 0xFF))
  | 16 => (u32 (state + 1), decide (state < 0xFFFF))
  | 24 => (u32 (state + 1), decide (state < 0xFFFFFF))
  | _ => (u32 (state + 1), u32 (state + 1) != 0)

/-- The read of lines 94, 100, 106 and 112: whether the asserted condition holds
(1 or 0), the new content of `stream`, and the unread input. For `bits = 8` the
condition is `(stream = getchar()) < 256U`, otherwise `1 == fread(...)`. -/
def readSample (bits stream : Nat) (stdin : List Byte) : Nat × Nat × List Byte :=
  match bits with
  | 8 => ((if (getchar stdin).1 < 256 then 1 else 0), (getchar stdin).1, (getchar stdin).2)
  | 16 => fread stream 2 stdin
  | 24 => fread stream 3 stdin
  | _ => fread stream 4 stdin

/-- One iteration of the decode loop selected by `bits` (lines 93-96, 99-102,
105-108, 111-114). -/
def decodeStep (bits : Nat) (lut : List Nat) (d : Dec) : Except Err (Dec × Bool) :=
  let r := readSample bits d.stream d.stdin
  if r.1 = 1 then
    match bump lut d.indegree r.2.1 with
    | .error e => .error e
    | .ok a =>
      let c := loopCond bits d.state
      .ok ({ state := c.1, stream := r.2.1, indegree := a, stdin := r.2.2 }, c.2)
  else
    .error .shortRead

/-- Lines 90-116: `switch(bits)` over the four decode loops, entered with
`state = 0`, `stream = stream0` and the zeroed array of line 79. -/
def decode (bits : Nat) (lut : List Nat) (stream0 : Nat) (stdin : List Byte) : Except Err Dec :=
  let d0 : Dec :=
    { state := 0, stream := stream0, indegree := List.replicate (2 ^ (bits - 2)) 0, stdin := stdin }
  if bits = 8 ∨ bits = 16 ∨ bits = 24 ∨ bits = 32 then
    doWhile (decodeStep bits lut) loopFuel d0
  else
    .ok d0

/-! ## Lines 118-143: the aggregation pass -/

/-- The expression `(b >> (v%4)*2) & 3U`: the 2-bit counter of node `v` inside
the byte `b = indegree[v>>2]`. -/
def field (b v : Nat) : Nat := (b >>> ((v % 4) * 2)) &&& 3

/-- The statement `counts[(indegree[state>>2] >> (state%4)*2) & 3U]++;`. -/
def tally (indegree : List Nat) (state : Nat) (counts : List Nat) : Except Err (List Nat) :=
  if h : state >>> 2 < indegree.length then
    let k := field (indegree.get ⟨state >>> 2, h⟩) state
    .ok (counts.set k (u64 (counts.getD k 0 + 1)))
  else
    .error .outOfBounds

/-- One iteration of the aggregation loop selected by `bits`; the state is the
pair of `state` and `counts`. -/
def aggStep (bits : Nat) (indegree : List Nat) (s : Nat × List Nat) :
    Except Err ((Nat × List Nat) × Bool) :=
  match tally indegree s.1 s.2 with
  | .error e => .error e
  | .ok c =>
    let n := loopCond bits s.1
    .ok ((n.1, c), n.2)

/-- Lines 118-141: `counts` after the aggregation loop selected by `bits`. -/
def aggregate (bits : Nat) (indegree : List Nat) : Except Err (List Nat) :=
  if bits = 8 ∨ bits = 16 ∨ bits = 24 ∨ bits = 32 then
    match doWhile (aggStep bits indegree) loopFuel (0, [0, 0, 0, 0]) with
    | .error e => .error e
    | .ok s => .ok s.2
  else
    .ok [0, 0, 0, 0]

/-- Line 143: `assert(counts[0] + counts[1] + counts[2] + counts[3] ==
(unsigned long long)1U<<bits);`. -/
def checkSum (bits : Nat) (counts : List Nat) : Except Err Unit :=
  if u64 (u64 (u64 (counts.getD 0 0 + counts.getD 1 0) + counts.getD 2 0) + counts.getD 3 0)
      = u64 (1 <<< bits) then
    .ok ()
  else
    .error .badSum

/-- Lines 79-143 for a resolved `bits`: table, decode pass, aggregation pass and
the consistency assertion; the result is `counts`. -/
def countPhase (bits stream0 : Nat) (stdin : List Byte) : Except Err (List Nat) :=
  match buildLUT with
  | .error e => .error e
  | .ok lut =>
    match decode bits lut.1 stream0 stdin with
    | .error e => .error e
    | .ok d =>
      match aggregate bits d.indegree with
      | .error e => .error e
      | .ok counts =>
        match checkSum bits counts with
        | .error e => .error e
        | .ok _ => .ok counts

/-! ## Lines 144-164: goodness of fit and report -/

/-- The two library values the test uses: the constant `M_E` of `math.h` and
the function `gsl_cdf_chisq_P` of the GNU Scientific Library. -/
structure Numerics (α : Type) where
  M_E : α
  gsl_cdf_chisq_P : α → α → α

/-- Lines 144-148: the array `expecteds`. -/
def expecteds {α : Type} [Field α] (m : Numerics α) (bits : Nat) : List α :=
  let n : α := ((u64 (1 <<< bits) : Nat) : α)
  let e0 := n / m.M_E
  let e1 := e0
  let e2 := e1 / 2
  let e3 := n - e0 - e1 - e2
  [e0, e1, e2, e3]

/-- Lines 149-155: the statistic `chi2` accumulated by the `for` loop. -/
def chi2 {α : Type} [Field α] (m : Numerics α) (bits : Nat) (counts : List Nat) : α :=
  (List.range 4).foldl
    (fun acc i =>
      let a : α := ((counts.getD i 0 : Nat) : α) - (expecteds m bits).getD i 0
      acc + a * a / (expecteds m bits).getD i 0)
    0

/-- Line 156: `pval = gsl_cdf_chisq_P(chi2, 2.0)`. -/
def pval {α : Type} [Field α] (m : Numerics α) (bits : Nat) (counts : List Nat) : α :=
  m.gsl_cdf_chisq_P (chi2 m bits counts) 2

/-- Lines 159-162: the constant array `empirical_limits`. The array has type
`double`, so each entry is the binary64 number nearest to its decimal literal
(`0.0135050, 0.994718`, `0.0107605, 0.995029`, `0.0111855, 0.995167`,
`0.005, 0.995`), written here as a 53-bit significand over a power of two. -/
def empirical_limits {α : Type} [Field α] : List (α × α) :=
  [(7785102459857734 / 2 ^ 59, 8959623228277450 / 2 ^ 53),
   (6203005925160988 / 2 ^ 59, 8962424467245675 / 2 ^ 53),
   (6448001744889943 / 2 ^ 59, 8963667460742829 / 2 ^ 53),
   (5764607523034235 / 2 ^ 60, 8962163258467287 / 2 ^ 53)]

/-- Lines 163-164: the string printed after `Test (1% false rejection): `; `p` is
the value of the double `pval`, compared with the stored limits. -/
def verdict {α : Type} [LinearOrderedField α] (bits : Nat) (p : α) : String :=
  let idx := bits / 8 - 1
  let lim : α × α := empirical_limits.getD idx (0, 0)
  if lim.1 < p ∧ p < lim.2 then "Pass" else "Fail"

/-- A line written to standard output; numbers are kept as values, their
`printf` formatting is not modelled. -/
inductive OutLine (α : Type)
  | header
  | row (i : Nat) (suffix : String) (count : Nat) (expected : α)
  | pvalue (p : α)
  | test (v : String)

/-- Lines 150-164: the output of a run whose aggregation gave `counts`. -/
def report {α : Type} [LinearOrderedField α] (m : Numerics α) (bits : Nat) (counts : List Nat) :
    List (OutLine α) :=
  [OutLine.header]
    ++ (List.range 4).map
        (fun i => OutLine.row i (if i < 3 then " " else "+") (counts.getD i 0)
          ((expecteds m bits).getD i 0))
    ++ [OutLine.pvalue (pval m bits counts), OutLine.test (verdict bits (pval m bits counts))]

/-- Lines 79-165 of `main` for a resolved `bits`: what is written to standard
output, and whether the run reached `return 0`. Nothing is printed before the
counting phase has ended. -/
def mainResolved {α : Type} [LinearOrderedField α] (m : Numerics α) (bits stream0 : Nat)
    (stdin : List Byte) : List (OutLine α) × Except Err Unit :=
  match countPhase bits stream0 stdin with
  | .error e => ([], .error e)
  | .ok counts => (report m bits counts, .ok ())

/-- Exact real arithmetic: `M_E` is Euler's number and `gsl_cdf_chisq_P x nu` is
the cumulative distribution function, at `x`, of the chi-squared distribution
with `nu` degrees of freedom, that is of the gamma distribution with shape
`nu / 2` and rate `1 / 2` (GSL reference manual: `gsl_cdf_chisq_P` is the lower
tail `P(x)`, `gsl_cdf_chisq_Q` the upper tail `Q(x)`). -/
noncomputable def realMath : Numerics ℝ where
  M_E := Real.exp 1
  gsl_cdf_chisq_P := fun x nu => ProbabilityTheory.gammaCDFReal (nu / 2) (1 / 2) x

/-! ## Closed forms of the two passes -/

/-- Number of node ids `v < j` whose 2-bit counter in `indegree` reads `d`. -/
def bucketCount (indegree : List Nat) (j d : Nat) : Nat :=
  ((List.range j).filter fun v => field (indegree.getD (v >>> 2) 0) v = d).length

/-- The array `counts` after the nodes `0 .. j-1` have been tallied. -/
def tallied (indegree : List Nat) (j : Nat) : List Nat :=
  [bucketCount indegree j 0, bucketCount indegree j 1, bucketCount indegree j 2,
    bucketCount indegree j 3]

/-- Number of bytes of one sample: `bits / 8`. -/
def sampleSize (bits : Nat) : Nat := bits / 8

/-- The value read into `stream` on iteration `i` when the bytes of `stream`
above the sample width are zero. -/
def sampleAt (bits : Nat) (stdin : List Byte) (i : Nat) : Nat :=
  leValue ((stdin.drop (i * sampleSize bits)).take (sampleSize bits))

/-- The effect of `bump` on the array when the index is in range. -/
def bumped (lut : List Nat) (indegree : List Nat) (stream : Nat) : List Nat :=
  indegree.set (stream >>> 2) (lutGet lut (stream % 4) (indegree.getD (stream >>> 2) 0))

/-- The counter array after the first `j` samples of `stdin`. -/
def bumpedUpTo (bits : Nat) (lut : List Nat) (stdin : List Byte) (j : Nat) : List Nat :=
  ((List.range j).map (sampleAt bits stdin)).foldl (bumped lut)
    (List.replicate (2 ^ (bits - 2)) 0)

/-- The state in which the decode loop ends when every read succeeds. -/
def decodeEnd (bits : Nat) (lut : List Nat) (stdin : List Byte) : Dec :=
  { state := u32 (2 ^ bits), stream := sampleAt bits stdin (2 ^ bits - 1),
    indegree := bumpedUpTo bits lut stdin (2 ^ bits),
    stdin := stdin.drop (2 ^ bits * sampleSize bits) }

/-- The state before iteration `j` of the decode loop. -/
def DecodeInv (bits : Nat) (lut : List Nat) (stream0 : Nat) (stdin : List Byte) (j : Nat)
    (d : Dec) : Prop :=
  d.state = j ∧ d.stdin = stdin.drop (j * sampleSize bits) ∧
    d.indegree = bumpedUpTo bits lut stdin j ∧
    d.stream = if j = 0 then stream0 else sampleAt bits stdin (j - 1)

/-! ## Reference definitions taken from the specification -/

/-- Specification: the samples of an `n = 8` input, one per byte. -/
def samples8 (stdin : List Byte) : List Nat := stdin.map fun b => b.val

/-- Specification: the bucket totals of a sample sequence over `2^bits` nodes:
for `d < 3` the number of node ids that occur exactly `d` times, for `d = 3` the
number of node ids that occur three or more times. -/
def specCounts (bits : Nat) (samples : List Nat) : List Nat :=
  (List.range 4).map fun d =>
    ((List.range (2 ^ bits)).filter fun v => min 3 (samples.count v) = d).length

/-- Specification: the byte `b` with only the 2-bit field at bit positions
`2*slot .. 2*slot+1` replaced by `min (field + 1) 3`. -/
def specIncrement (slot b : Nat) : Nat :=
  b - field b slot * 4 ^ slot + min (field b slot + 1) 3 * 4 ^ slot

/-- Specification: the `i`-th sample of an input of `size`-byte samples, least
significant byte first. -/
def specSample (size : Nat) (stdin : List Byte) (i : Nat) : Nat :=
  ((List.range size).map fun k => ((stdin.getD (i * size + k) 0).val) * 256 ^ k).sum

/-! ## Iterations of a loop -/

/-- The states on which the body of `do body while (cond)` is run, in order: one
entry per iteration. -/
def doWhileTrace {σ : Type} (body : σ → Except Err (σ × Bool)) : Nat → σ → List σ
  | 0, _ => []
  | fuel + 1, s =>
    s :: match body s with
      | .ok (s', true) => doWhileTrace body fuel s'
      | _ => []

/-- The state in which the decode loop is entered: `state = 0`, `stream` as it
was left by its declaration, the zeroed array of line 79 and the whole input. -/
def decodeInit (bits stream0 : Nat) (stdin : List Byte) : Dec :=
  { state := 0, stream := stream0, indegree := List.replicate (2 ^ (bits - 2)) 0, stdin := stdin }

/-- Sum of the four 2-bit fields of a byte. -/
def fieldSum (b : Nat) : Nat := field b 0 + field b 1 + field b 2 + field b 3

/-- Sum of the 2-bit counters of the nodes `0 .. n-1`. -/
def counterSum (indegree : List Nat) (n : Nat) : Nat :=
  ((List.range n).map fun v => field (indegree.getD (v >>> 2) 0) v).sum

/-- The indices of the counter bytes that no sample of the input targets. -/
def untouched (bits : Nat) (stdin : List Byte) : List Nat :=
  (List.range (2 ^ (bits - 2))).filter fun i =>
    (List.range (2 ^ bits)).all fun k => sampleAt bits stdin k >>> 2 != i

/-! ## Lines 57-77: mode resolution -/

/-- The two C library functions that mode resolution calls. -/
structure Libc where
  basename : String → String
  atoi : String → Int

/-- Whether `strncmp(a, b, n)` returns 0: the strings agree on their first `n`
characters, or up to and including their terminating zero if that comes first.
A string is the list of its characters before the terminator. -/
def strncmpZero : List Char → List Char → Nat → Bool
  | _, _, 0 => true
  | [], [], _ + 1 => true
  | [], _ :: _, _ + 1 => false
  | _ :: _, [], _ + 1 => false
  | a :: as, b :: bs, n + 1 => if a = b then strncmpZero as bs n else false

/-- Lines 60-76: the value of `bits` after the `switch(argc)`; `argc` is the
length of `argv`. -/
def resolve (libc : Libc) (argv : List String) : Nat :=
  match argv with
  | [a0] =>
    if strncmpZero "artemisia8".data (libc.basename a0).data 11 then 8
    else if strncmpZero "artemisia16".data (libc.basename a0).data 12 then 16
    else if strncmpZero "artemisia24".data (libc.basename a0).data 12 then 24
    else if strncmpZero "artemisia32".data (libc.basename a0).data 12 then 32
    else 0
  | [a0, a1] =>
    if strncmpZero "artemisia".data (libc.basename a0).data 10 then
      match libc.atoi a1 with
      | 8 => 8
      | 16 => 16
      | 24 => 24
      | 32 => 32
      | _ => 0
    else 0
  | _ => 0

/-- What a run of the program leaves behind: whether `usage()` wrote its text to
standard error, the lines written to standard output, and the exit status
(`.ok 0` for `return 0`) or the failure that stopped the run. -/
structure RunResult (α : Type) where
  usage : Bool
  stdout : List (OutLine α)
  exit : Except Err Nat

/-- Lines 57-165: `main`. When `bits` is 0 after mode resolution, `usage()` is
called and `main` returns 0 (line 77) before any read. -/
def main {α : Type} [LinearOrderedField α] (m : Numerics α) (libc : Libc) (argv : List String)
    (stream0 : Nat) (stdin : List Byte) : RunResult α :=
  if resolve libc argv = 0 then
    { usage := true, stdout := [], exit := .ok 0 }
  else
    match mainResolved m (resolve libc argv) stream0 stdin with
    | (out, .ok _) => { usage := false, stdout := out, exit := .ok 0 }
    | (out, .error e) => { usage := false, stdout := out, exit := .error e }

/-! ## Inputs and reference definitions of the scenarios -/

/-- Scenario A of the specification: 256 input bytes, all equal to 0. -/
def scenarioA : List Byte := List.replicate 256 0

/-- Scenario B of the specification: the byte values `4*k` for `k = 0 .. 63`,
repeated four times. -/
def scenarioB : List Byte :=
  (List.range 256).map fun i => Fin.ofNat (4 * (i % 64))

/-- Specification: `x` rotated left by `r` bits within 8 bits: bit `i` of the
result is bit `(i - r) mod 8` of `x`. -/
def rotl8 (x r : Nat) : Nat :=
  ((List.range 8).map fun i => if x.testBit ((i + 8 - r % 8) % 8) then 2 ^ i else 0).sum

/-! ## Loop rule -/

/-- Invariant rule for `doWhile`: if `P j` holds before iteration `j`, the first
`N` iterations continue and iteration `N` ends the loop or fails, then the
outcome satisfies `R`. -/
theorem doWhile_inv {σ : Type} (body : σ → Except Err (σ × Bool)) (P : Nat → σ → Prop)
    (R : Except Err σ → Prop) (N : Nat)
    (hstep : ∀ j s, j < N → P j s → ∃ s', body s = .ok (s', true) ∧ P (j + 1) s')
    (hlast : ∀ s, P N s →
      (∃ e, body s = .error e ∧ R (.error e)) ∨ (∃ s', body s = .ok (s', false) ∧ R (.ok s'))) :
    ∀ (k j fuel : Nat) (s : σ), j + k = N → k < fuel → P j s → R (doWhile body fuel s) := by
  intro k
  induction k with
  | zero =>
    intro j fuel s hj hf hP
    have hjN : j = N := by omega
    subst hjN
    obtain ⟨f, rfl⟩ : ∃ f, fuel = f + 1 := ⟨fuel - 1, by omega⟩
    rcases hlast s hP with ⟨e, he, hR⟩ | ⟨s', hs, hR⟩
    · simpa [doWhile, he] using hR
    · simpa [doWhile, hs] using hR
  | succ k ih =>
    intro j fuel s hj hf hP
    obtain ⟨f, rfl⟩ : ∃ f, fuel = f + 1 := ⟨fuel - 1, by omega⟩
    obtain ⟨s', hs, hP'⟩ := hstep j s (by omega) hP
    have := ih (j + 1) f s' (by omega) (by omega) hP'
    simpa [doWhile, hs] using this

/-! ## The lookup table -/

theorem lutGet_set_eq (t : List Nat) (k v s b : Nat) (hk : k = 256 * s + b) (hlt : k < t.length) :
    lutGet (t.set k v) s b = v := by
  subst hk
  simp [lutGet, List.getD_eq_getElem?_getD, List.getElem?_set, hlt]

theorem lutGet_set_ne (t : List Nat) (k v s b : Nat) (hk : k ≠ 256 * s + b) :
    lutGet (t.set k v) s b = lutGet t s b := by
  simp [lutGet, List.getD_eq_getElem?_getD, List.getElem?_set, hk]

theorem lutBody_eq (t : List Nat) (i : Nat) (hlen : t.length = 1024) (hi : i < 256) :
    lutBody t i =
      (((t.set i (lutVal 0 i)).set (256 + i) (lutVal 1 i)).set (512 + i) (lutVal 2 i)).set
        (768 + i) (lutVal 3 i) := by
  have h0 : lutGet (t.set i (lut0 i)) 0 i = lut0 i :=
    lutGet_set_eq _ _ _ _ _ (by omega) (by omega)
  have h1 : lutGet ((t.set i (lut0 i)).set (256 + i) (lutVal 1 i)) 0 i = lut0 i := by
    rw [lutGet_set_ne _ _ _ _ _ (by omega), h0]
  have h2 : lutGet (((t.set i (lut0 i)).set (256 + i) (lutVal 1 i)).set (512 + i) (lutVal 2 i))
      0 i = lut0 i := by
    rw [lutGet_set_ne _ _ _ _ _ (by omega), h1]
  have e1 : lutVal 1 i = u8 ((lut0 i <<< 2) ||| (lut0 i >>> 6)) := rfl
  have e2 : lutVal 2 i = u8 ((lut0 i <<< 4) ||| (lut0 i >>> 4)) := rfl
  have e3 : lutVal 3 i = u8 ((lut0 i <<< 6) ||| (lut0 i >>> 2)) := rfl
  have e0 : lutVal 0 i = lut0 i := rfl
  unfold lutBody
  simp only [← lut0.eq_1]
  rw [h0, ← e1, h1, ← e2, h2, ← e3, e0]

theorem length_lutBody (t : List Nat) (i : Nat) : (lutBody t i).length = t.length := by
  simp [lutBody]

theorem lutGet_lutBody_same (t : List Nat) (i s : Nat) (hlen : t.length = 1024) (hi : i < 256)
    (hs : s < 4) : lutGet (lutBody t i) s i = lutVal s i := by
  rw [lutBody_eq t i hlen hi]
  have h4 : s = 0 ∨ s = 1 ∨ s = 2 ∨ s = 3 := by omega
  rcases h4 with rfl | rfl | rfl | rfl
  · rw [lutGet_set_ne _ _ _ _ _ (by omega), lutGet_set_ne _ _ _ _ _ (by omega),
      lutGet_set_ne _ _ _ _ _ (by omega), lutGet_set_eq _ _ _ _ _ (by omega) (by omega)]
  · rw [lutGet_set_ne _ _ _ _ _ (by omega), lutGet_set_ne _ _ _ _ _ (by omega),
      lutGet_set_eq _ _ _ _ _ (by omega) (by simp; omega)]
  · rw [lutGet_set_ne _ _ _ _ _ (by omega),
      lutGet_set_eq _ _ _ _ _ (by omega) (by simp; omega)]
  · rw [lutGet_set_eq _ _ _ _ _ (by omega) (by simp; omega)]

theorem lutGet_lutBody_other (t : List Nat) (i s b : Nat) (hi : i < 256)
    (hb : b < 256) (hbi : b ≠ i) (hlen : t.length = 1024) :
    lutGet (lutBody t i) s b = lutGet t s b := by
  rw [lutBody_eq t i hlen hi]
  rw [lutGet_set_ne _ _ _ _ _ (by omega), lutGet_set_ne _ _ _ _ _ (by omega),
    lutGet_set_ne _ _ _ _ _ (by omega), lutGet_set_ne _ _ _ _ _ (by omega)]

theorem length_lutTable : lutTable.length = 1024 := by simp [lutTable]

theorem lutGet_lutTable (s b : Nat) (hs : s < 4) (hb : b < 256) :
    lutGet lutTable s b = lutVal s b := by
  have hk : 256 * s + b < 1024 := by omega
  have h1 : (256 * s + b) / 256 = s := by omega
  have h2 : (256 * s + b) % 256 = b := by omega
  simp [lutGet, lutTable, List.getD_eq_getElem?_getD, List.getElem?_map, List.getElem?_range hk,
    h1, h2]

theorem eq_lutTable (t : List Nat) (hlen : t.length = 1024)
    (h : ∀ s b, s < 4 → b < 256 → lutGet t s b = lutVal s b) : t = lutTable := by
  apply List.ext_getElem
  · rw [hlen, length_lutTable]
  · intro k hk1 hk2
    rw [hlen] at hk1
    have e1 := h (k / 256) (k % 256) (by omega) (by omega)
    have e2 := lutGet_lutTable (k / 256) (k % 256) (by omega) (by omega)
    have hk : 256 * (k / 256) + k % 256 = k := by omega
    simp only [lutGet, hk, List.getD_eq_getElem?_getD] at e1 e2
    rw [List.getElem?_eq_getElem (by omega)] at e1 e2
    simp only [Option.getD_some] at e1 e2
    rw [e1, e2]

/-- The loop of lines 83-88 ends after 256 iterations, with `i = 0` and every
entry of the table written, whatever the array held before. -/
theorem buildLUTFrom_eq (init : List Nat) (hlen : init.length = 1024) :
    buildLUTFrom init = .ok (lutTable, 0) := by
  unfold buildLUTFrom
  refine doWhile_inv lutStep
    (fun j s => s.2 = j ∧ s.1.length = 1024 ∧
      ∀ s' b, s' < 4 → b < j → lutGet s.1 s' b = lutVal s' b)
    (fun r => r = .ok (lutTable, 0)) 255 ?_ ?_ 255 0 loopFuel (init, 0) (by omega)
    (by simp [loopFuel]) ⟨rfl, hlen, fun _ _ _ hb => absurd hb (by omega)⟩
  · rintro j ⟨t, i⟩ hj ⟨hi, hl, hP⟩
    simp only at hi hl hP
    subst hi
    refine ⟨(lutBody t i, i + 1), ?_, rfl, ?_, ?_⟩
    · have : u8 (i + 1) = i + 1 := by unfold u8; omega
      simp [lutStep, this]
    · simp [length_lutBody, hl]
    · intro s b hs hb
      by_cases hbi : b = i
      · subst hbi
        exact lutGet_lutBody_same t b s hl (by omega) hs
      · rw [lutGet_lutBody_other t i s b (by omega) (by omega) hbi hl]
        exact hP s b hs (by omega)
  · rintro ⟨t, i⟩ ⟨hi, hl, hP⟩
    simp only at hi hl hP
    subst hi
    right
    refine ⟨(lutBody t 255, 0), by simp [lutStep, u8], ?_⟩
    have : lutBody t 255 = lutTable := by
      apply eq_lutTable _ (by simp [length_lutBody, hl])
      intro s b hs hb
      by_cases hbi : b = 255
      · subst hbi
        exact lutGet_lutBody_same t 255 s hl (by omega) hs
      · rw [lutGet_lutBody_other t 255 s b (by omega) (by omega) hbi hl]
        exact hP s b hs (by omega)
    rw [this]

theorem buildLUT_eq : buildLUT = .ok (lutTable, 0) :=
  buildLUTFrom_eq _ (List.length_replicate _ _)

theorem LUT_eq : LUT = lutTable := by
  unfold LUT
  rw [buildLUT_eq]

/-! ## The aggregation pass -/

theorem field_lt (b v : Nat) : field b v < 4 := by
  unfold field
  have : (b >>> ((v % 4) * 2)) &&& 3 ≤ 3 := Nat.and_le_right
  omega

theorem bucketCount_succ (indegree : List Nat) (j d : Nat) :
    bucketCount indegree (j + 1) d =
      bucketCount indegree j d + if field (indegree.getD (j >>> 2) 0) j = d then 1 else 0 := by
  unfold bucketCount
  rw [List.range_succ, List.filter_append, List.length_append]
  by_cases h : field (indegree.getD (j >>> 2) 0) j = d
  · rw [if_pos h, List.filter_cons_of_pos (by simpa using h)]
    rfl
  · rw [if_neg h, List.filter_cons_of_neg (by simpa using h)]
    rfl

theorem bucketCount_total (indegree : List Nat) (j : Nat) :
    bucketCount indegree j 0 + bucketCount indegree j 1 + bucketCount indegree j 2
      + bucketCount indegree j 3 = j := by
  induction j with
  | zero => simp [bucketCount]
  | succ j ih =>
    simp only [bucketCount_succ]
    have h := field_lt (indegree.getD (j >>> 2) 0) j
    generalize field (indegree.getD (j >>> 2) 0) j = f at h ⊢
    have h4 : f = 0 ∨ f = 1 ∨ f = 2 ∨ f = 3 := by omega
    rcases h4 with rfl | rfl | rfl | rfl <;> simp <;> omega

theorem bucketCount_le (indegree : List Nat) (j d : Nat) : bucketCount indegree j d ≤ j := by
  unfold bucketCount
  exact (List.length_filter_le _ _).trans (by simp)

theorem shiftRight_two_lt (v bits : Nat) (hb : 2 ≤ bits) (hv : v < 2 ^ bits) :
    v >>> 2 < 2 ^ (bits - 2) := by
  rw [Nat.shiftRight_eq_div_pow]
  have : 2 ^ bits = 2 ^ 2 * 2 ^ (bits - 2) := by
    rw [← Nat.pow_add]; congr 1; omega
  rw [this] at hv
  exact Nat.div_lt_of_lt_mul hv

/-- One tally step moves `tallied … j` to `tallied … (j+1)`. -/
theorem tally_tallied (indegree : List Nat) (j : Nat) (hj : j >>> 2 < indegree.length)
    (hj64 : j < 2 ^ 64 - 1) :
    tally indegree j (tallied indegree j) = .ok (tallied indegree (j + 1)) := by
  unfold tally
  rw [dif_pos hj]
  have hget : indegree.get ⟨j >>> 2, hj⟩ = indegree.getD (j >>> 2) 0 := by
    simp [List.getD_eq_getElem?_getD, List.getElem?_eq_getElem hj]
  rw [hget]
  have h := field_lt (indegree.getD (j >>> 2) 0) j
  have hu : ∀ d, u64 (bucketCount indegree j d + 1) = bucketCount indegree j d + 1 := by
    intro d
    have := bucketCount_le indegree j d
    unfold u64
    exact Nat.mod_eq_of_lt (by omega)
  simp only [tallied, bucketCount_succ]
  generalize field (indegree.getD (j >>> 2) 0) j = f at h ⊢
  have h4 : f = 0 ∨ f = 1 ∨ f = 2 ∨ f = 3 := by omega
  rcases h4 with rfl | rfl | rfl | rfl <;> simp [hu]

theorem loopCond_continue (bits j : Nat) (hb : bits = 8 ∨ bits = 16 ∨ bits = 24 ∨ bits = 32)
    (hj : j + 1 < 2 ^ bits) : loopCond bits j = (j + 1, true) := by
  rcases hb with rfl | rfl | rfl | rfl <;>
    simp only [loopCond, u32, Prod.mk.injEq] <;> norm_num at hj ⊢ <;> omega

theorem loopCond_exit (bits : Nat) (hb : bits = 8 ∨ bits = 16 ∨ bits = 24 ∨ bits = 32) :
    loopCond bits (2 ^ bits - 1) = (u32 (2 ^ bits), false) := by
  rcases hb with rfl | rfl | rfl | rfl <;> simp [loopCond, u32]

/-- The aggregation loop visits the node ids `0 .. 2^bits - 1` once each and
leaves `counts` equal to the four bucket sizes of the array. -/
theorem aggregate_eq (bits : Nat) (hb : bits = 8 ∨ bits = 16 ∨ bits = 24 ∨ bits = 32)
    (indegree : List Nat) (hlen : 2 ^ (bits - 2) ≤ indegree.length) :
    aggregate bits indegree = .ok (tallied indegree (2 ^ bits)) := by
  have hpos : 0 < 2 ^ bits := Nat.two_pow_pos bits
  have h32 : 2 ^ bits ≤ 2 ^ 32 := Nat.pow_le_pow_right (by norm_num) (by omega)
  have hloop : doWhile (aggStep bits indegree) loopFuel (0, [0, 0, 0, 0])
      = .ok (u32 (2 ^ bits), tallied indegree (2 ^ bits)) := by
    refine doWhile_inv (aggStep bits indegree)
      (fun j s => s = (j, tallied indegree j))
      (fun r => r = .ok (u32 (2 ^ bits), tallied indegree (2 ^ bits))) (2 ^ bits - 1) ?_ ?_
      (2 ^ bits - 1) 0 loopFuel (0, [0, 0, 0, 0]) (by omega) (by unfold loopFuel; omega)
      (by simp [tallied, bucketCount])
    · rintro j s hj rfl
      have hin : j >>> 2 < indegree.length :=
        lt_of_lt_of_le (shiftRight_two_lt j bits (by omega) (by omega)) hlen
      refine ⟨(j + 1, tallied indegree (j + 1)), ?_, rfl⟩
      simp only [aggStep, tally_tallied indegree j hin (by omega),
        loopCond_continue bits j hb (by omega)]
    · rintro s rfl
      right
      have hin : (2 ^ bits - 1) >>> 2 < indegree.length :=
        lt_of_lt_of_le (shiftRight_two_lt _ bits (by omega) (by omega)) hlen
      refine ⟨_, ?_, rfl⟩
      have e : 2 ^ bits - 1 + 1 = 2 ^ bits := by omega
      simp only [aggStep, tally_tallied indegree _ hin (by omega), loopCond_exit bits hb, e]
  unfold aggregate
  rw [if_pos hb, hloop]

theorem checkSum_tallied (bits : Nat) (hb : bits = 8 ∨ bits = 16 ∨ bits = 24 ∨ bits = 32)
    (indegree : List Nat) : checkSum bits (tallied indegree (2 ^ bits)) = .ok () := by
  have h32 : 2 ^ bits ≤ 2 ^ 32 := Nat.pow_le_pow_right (by norm_num) (by omega)
  have ht := bucketCount_total indegree (2 ^ bits)
  have hu : ∀ x, x ≤ 2 ^ bits → u64 x = x := fun x hx => Nat.mod_eq_of_lt (by omega)
  unfold checkSum
  simp only [tallied, List.getD_cons_zero, List.getD_cons_succ, Nat.one_shiftLeft]
  generalize bucketCount indegree (2 ^ bits) 0 = a at ht ⊢
  generalize bucketCount indegree (2 ^ bits) 1 = b at ht ⊢
  generalize bucketCount indegree (2 ^ bits) 2 = c at ht ⊢
  generalize bucketCount indegree (2 ^ bits) 3 = d at ht ⊢
  rw [hu (a + b) (by omega), hu (a + b + c) (by omega), hu (a + b + c + d) (by omega),
    hu (2 ^ bits) (le_refl _), if_pos ht]

/-! ## The decode pass -/

theorem leValue_lt (l : List Byte) : leValue l < 256 ^ l.length := by
  induction l with
  | nil => simp [leValue]
  | cons b bs ih =>
    have hb := b.isLt
    simp only [leValue, List.length_cons, Nat.pow_succ]
    omega

theorem leValue_take_lt (l : List Byte) (n : Nat) : leValue (l.take n) < 256 ^ n := by
  have h := leValue_lt (l.take n)
  have : 256 ^ (l.take n).length ≤ 256 ^ n :=
    Nat.pow_le_pow_right (by norm_num) (by simp)
  omega

theorem pow_sampleSize (bits : Nat) (hb : bits = 8 ∨ bits = 16 ∨ bits = 24 ∨ bits = 32) :
    256 ^ sampleSize bits = 2 ^ bits := by
  rcases hb with rfl | rfl | rfl | rfl <;> norm_num [sampleSize]

theorem sampleAt_lt (bits : Nat) (hb : bits = 8 ∨ bits = 16 ∨ bits = 24 ∨ bits = 32)
    (stdin : List Byte) (i : Nat) : sampleAt bits stdin i < 2 ^ bits := by
  rw [← pow_sampleSize bits hb]
  exact leValue_take_lt _ _

/-- A read with enough input left stores the next sample, provided that for the
2- and 3-byte reads the bytes of `stream` that `fread` does not write are zero. -/
theorem readSample_ok (bits stream : Nat) (rest : List Byte)
    (hb : bits = 8 ∨ bits = 16 ∨ bits = 24 ∨ bits = 32)
    (hs : bits = 16 ∨ bits = 24 → stream < 2 ^ bits)
    (hlen : sampleSize bits ≤ rest.length) :
    readSample bits stream rest
      = (1, leValue (rest.take (sampleSize bits)), rest.drop (sampleSize bits)) := by
  rcases hb with rfl | rfl | rfl | rfl
  · cases rest with
    | nil => simp [sampleSize] at hlen
    | cons c cs =>
      have hc := c.isLt
      simp [readSample, getchar, sampleSize, leValue, hc]
  · have h := hs (Or.inl rfl)
    have hv := leValue_take_lt rest 2
    have hz : stream / 256 ^ 2 = 0 := Nat.div_eq_of_lt (by norm_num at h ⊢; omega)
    simp only [sampleSize] at hlen
    norm_num at hlen
    simp only [readSample, fread, sampleSize, if_pos hlen, hz, u32]
    norm_num at hv ⊢
    omega
  · have h := hs (Or.inr rfl)
    have hv := leValue_take_lt rest 3
    have hz : stream / 256 ^ 3 = 0 := Nat.div_eq_of_lt (by norm_num at h ⊢; omega)
    simp only [sampleSize] at hlen
    norm_num at hlen
    simp only [readSample, fread, sampleSize, if_pos hlen, hz, u32]
    norm_num at hv ⊢
    omega
  · have hv := leValue_take_lt rest 4
    simp only [sampleSize] at hlen
    norm_num at hlen
    simp only [readSample, fread, sampleSize, if_pos hlen, u32]
    norm_num at hv ⊢
    omega

/-- A read with less than one sample left fails the assertion. -/
theorem readSample_short (bits stream : Nat) (rest : List Byte)
    (hb : bits = 8 ∨ bits = 16 ∨ bits = 24 ∨ bits = 32)
    (hlen : rest.length < sampleSize bits) :
    (readSample bits stream rest).1 = 0 := by
  rcases hb with rfl | rfl | rfl | rfl
  · cases rest with
    | nil => simp [readSample, getchar, u32]
    | cons c cs => simp [sampleSize] at hlen
  all_goals
    simp only [sampleSize] at hlen
    norm_num at hlen
    simp only [readSample, fread, if_neg (Nat.not_le_of_lt hlen)]

theorem leValue_take (l : List Byte) (k : Nat) :
    leValue (l.take k) = ((List.range k).map fun j => (l.getD j 0).val * 256 ^ j).sum := by
  induction k generalizing l with
  | zero => simp [leValue]
  | succ k ih =>
    cases l with
    | nil => simp [leValue]
    | cons b bs =>
      rw [List.take_succ_cons, leValue, ih bs, List.range_succ_eq_map, List.map_cons,
        List.sum_cons, List.map_map, ← List.sum_map_mul_left]
      have h0 : ((b :: bs).getD 0 0).val * 256 ^ 0 = b.val := by simp
      have hm : List.map (fun j => 256 * ((bs.getD j 0).val * 256 ^ j)) (List.range k)
          = List.map ((fun j => ((b :: bs).getD j 0).val * 256 ^ j) ∘ Nat.succ) (List.range k) := by
        apply List.map_congr_left
        intro j _
        simp only [Function.comp, List.getD_cons_succ, Nat.pow_succ]
        ring
      rw [h0, hm]

/-- When the unwritten bytes of `stream` are zero, the value read on iteration
`i` is the little-endian value of the bytes `i*size .. i*size + size - 1`. -/
theorem sampleAt_eq_specSample (bits : Nat) (stdin : List Byte) (i : Nat) :
    sampleAt bits stdin i = specSample (sampleSize bits) stdin i := by
  unfold sampleAt specSample
  rw [leValue_take]
  congr 2
  funext k
  simp [List.getD_eq_getElem?_getD, List.getElem?_drop]

theorem length_bumped (lut indegree : List Nat) (stream : Nat) :
    (bumped lut indegree stream).length = indegree.length := by
  simp [bumped]

theorem length_foldl_bumped (lut : List Nat) (l : List Nat) (a : List Nat) :
    (l.foldl (bumped lut) a).length = a.length := by
  induction l generalizing a with
  | nil => rfl
  | cons x xs ih => simp [List.foldl_cons, ih, length_bumped]

theorem length_bumpedUpTo (bits : Nat) (lut : List Nat) (stdin : List Byte) (j : Nat) :
    (bumpedUpTo bits lut stdin j).length = 2 ^ (bits - 2) := by
  simp [bumpedUpTo, length_foldl_bumped]

theorem bumpedUpTo_succ (bits : Nat) (lut : List Nat) (stdin : List Byte) (j : Nat) :
    bumpedUpTo bits lut stdin (j + 1)
      = bumped lut (bumpedUpTo bits lut stdin j) (sampleAt bits stdin j) := by
  simp [bumpedUpTo, List.range_succ, List.foldl_append]

theorem bump_ok (lut indegree : List Nat) (stream : Nat) (h : stream >>> 2 < indegree.length) :
    bump lut indegree stream = .ok (bumped lut indegree stream) := by
  unfold bump bumped
  rw [dif_pos h]
  simp [List.getD_eq_getElem?_getD, List.getElem?_eq_getElem h]

theorem bump_outOfBounds (lut indegree : List Nat) (stream : Nat)
    (h : indegree.length ≤ stream >>> 2) : bump lut indegree stream = .error .outOfBounds := by
  unfold bump
  rw [dif_neg (by omega)]

theorem decodeStep_ok (bits : Nat) (lut : List Nat) (stream0 : Nat) (stdin : List Byte)
    (hb : bits = 8 ∨ bits = 16 ∨ bits = 24 ∨ bits = 32)
    (hs : bits = 16 ∨ bits = 24 → stream0 < 2 ^ bits) (j : Nat) (d : Dec)
    (hlen : (j + 1) * sampleSize bits ≤ stdin.length)
    (hP : DecodeInv bits lut stream0 stdin j d) :
    decodeStep bits lut d
      = .ok ({ state := (loopCond bits j).1, stream := sampleAt bits stdin j,
               indegree := bumpedUpTo bits lut stdin (j + 1),
               stdin := stdin.drop ((j + 1) * sampleSize bits) }, (loopCond bits j).2) := by
  obtain ⟨h1, h2, h3, h4⟩ := hP
  have hstream : bits = 16 ∨ bits = 24 → d.stream < 2 ^ bits := by
    intro h
    rw [h4]
    split
    · exact hs h
    · exact sampleAt_lt bits hb stdin _
  have hrest : sampleSize bits ≤ d.stdin.length := by
    rw [h2, List.length_drop]
    have : (j + 1) * sampleSize bits = j * sampleSize bits + sampleSize bits := by ring
    omega
  have hread := readSample_ok bits d.stream d.stdin hb hstream hrest
  have hval : leValue (d.stdin.take (sampleSize bits)) = sampleAt bits stdin j := by
    rw [h2]; rfl
  have hdrop : d.stdin.drop (sampleSize bits) = stdin.drop ((j + 1) * sampleSize bits) := by
    rw [h2, List.drop_drop]
    congr 1
    ring
  have hin : sampleAt bits stdin j >>> 2 < d.indegree.length := by
    rw [h3, length_bumpedUpTo]
    exact shiftRight_two_lt _ bits (by omega) (sampleAt_lt bits hb stdin j)
  unfold decodeStep
  simp only [hread, hval, hdrop, bump_ok lut d.indegree _ hin, if_true, h1]
  rw [h3, ← bumpedUpTo_succ]

theorem decodeStep_short (bits : Nat) (lut : List Nat) (stream0 : Nat) (stdin : List Byte)
    (hb : bits = 8 ∨ bits = 16 ∨ bits = 24 ∨ bits = 32) (j : Nat) (d : Dec)
    (hlen : stdin.length < (j + 1) * sampleSize bits)
    (hP : DecodeInv bits lut stream0 stdin j d) :
    decodeStep bits lut d = .error .shortRead := by
  obtain ⟨_, h2, _, _⟩ := hP
  have hrest : d.stdin.length < sampleSize bits := by
    rw [h2, List.length_drop]
    have : (j + 1) * sampleSize bits = j * sampleSize bits + sampleSize bits := by ring
    have hpos : 0 < sampleSize bits := by
      rcases hb with rfl | rfl | rfl | rfl <;> simp [sampleSize]
    omega
  have := readSample_short bits d.stream d.stdin hb hrest
  unfold decodeStep
  simp [this]

theorem decodeStep_outOfBounds (bits : Nat) (lut : List Nat) (d : Dec) (v : Nat)
    (rest : List Byte) (hr : readSample bits d.stream d.stdin = (1, v, rest))
    (hv : d.indegree.length ≤ v >>> 2) : decodeStep bits lut d = .error .outOfBounds := by
  unfold decodeStep
  simp only [hr, if_true, bump_outOfBounds lut d.indegree v hv]

/-- With `2^bits` samples on the input, and the unwritten bytes of `stream`
zero for the 2- and 3-byte reads, the decode loop runs `2^bits` iterations and
ends in the state described by the closed forms. -/
theorem decode_ok (bits : Nat) (lut : List Nat) (stream0 : Nat) (stdin : List Byte)
    (hb : bits = 8 ∨ bits = 16 ∨ bits = 24 ∨ bits = 32)
    (hs : bits = 16 ∨ bits = 24 → stream0 < 2 ^ bits)
    (hlen : 2 ^ bits * sampleSize bits ≤ stdin.length) :
    decode bits lut stream0 stdin = .ok (decodeEnd bits lut stdin) := by
  have hpos : 0 < 2 ^ bits := Nat.two_pow_pos bits
  have h32 : 2 ^ bits ≤ 2 ^ 32 := Nat.pow_le_pow_right (by norm_num) (by omega)
  unfold decode
  rw [if_pos hb]
  refine doWhile_inv (decodeStep bits lut) (DecodeInv bits lut stream0 stdin)
    (fun r => r = .ok (decodeEnd bits lut stdin)) (2 ^ bits - 1) ?_ ?_
    (2 ^ bits - 1) 0 loopFuel _ (by omega) (by unfold loopFuel; omega)
    ⟨rfl, by simp, by simp [bumpedUpTo], by simp⟩
  · intro j d hj hP
    have hl : (j + 1) * sampleSize bits ≤ stdin.length :=
      le_trans (Nat.mul_le_mul_right _ (by omega)) hlen
    have hstep := decodeStep_ok bits lut stream0 stdin hb hs j d hl hP
    rw [loopCond_continue bits j hb (by omega)] at hstep
    exact ⟨_, hstep, rfl, rfl, rfl, by simp⟩
  · intro d hP
    right
    have e : 2 ^ bits - 1 + 1 = 2 ^ bits := by omega
    have hl : (2 ^ bits - 1 + 1) * sampleSize bits ≤ stdin.length := by rw [e]; exact hlen
    refine ⟨decodeEnd bits lut stdin, ?_, rfl⟩
    rw [decodeStep_ok bits lut stream0 stdin hb hs _ d hl hP, loopCond_exit bits hb, e]
    rfl

/-- With fewer than `2^bits` complete samples on the input, and the unwritten
bytes of `stream` zero for the 2- and 3-byte reads, the decode loop stops on a
failed read assertion. -/
theorem decode_short (bits : Nat) (lut : List Nat) (stream0 : Nat) (stdin : List Byte)
    (hb : bits = 8 ∨ bits = 16 ∨ bits = 24 ∨ bits = 32)
    (hs : bits = 16 ∨ bits = 24 → stream0 < 2 ^ bits)
    (hlen : stdin.length < 2 ^ bits * sampleSize bits) :
    decode bits lut stream0 stdin = .error .shortRead := by
  have h32 : 2 ^ bits ≤ 2 ^ 32 := Nat.pow_le_pow_right (by norm_num) (by omega)
  have hpos : 0 < sampleSize bits := by
    rcases hb with rfl | rfl | rfl | rfl <;> simp [sampleSize]
  have hk : stdin.length / sampleSize bits < 2 ^ bits :=
    Nat.div_lt_of_lt_mul (by rw [Nat.mul_comm]; exact hlen)
  unfold decode
  rw [if_pos hb]
  refine doWhile_inv (decodeStep bits lut) (DecodeInv bits lut stream0 stdin)
    (fun r => r = .error .shortRead) (stdin.length / sampleSize bits) ?_ ?_
    (stdin.length / sampleSize bits) 0 loopFuel _ (by omega) (by unfold loopFuel; omega)
    ⟨rfl, by simp, by simp [bumpedUpTo], by simp⟩
  · intro j d hj hP
    have hl : (j + 1) * sampleSize bits ≤ stdin.length :=
      le_trans (Nat.mul_le_mul_right _ hj) (Nat.div_mul_le_self _ _)
    have hstep := decodeStep_ok bits lut stream0 stdin hb hs j d hl hP
    rw [loopCond_continue bits j hb (by omega)] at hstep
    exact ⟨_, hstep, rfl, rfl, rfl, by simp⟩
  · intro d hP
    left
    refine ⟨_, decodeStep_short bits lut stream0 stdin hb _ d ?_ hP, rfl⟩
    exact Nat.lt_mul_of_div_lt (Nat.lt_succ_self _) hpos

/-! ## The counting phase -/

theorem countPhase_ok (bits stream0 : Nat) (stdin : List Byte)
    (hb : bits = 8 ∨ bits = 16 ∨ bits = 24 ∨ bits = 32)
    (hs : bits = 16 ∨ bits = 24 → stream0 < 2 ^ bits)
    (hlen : 2 ^ bits * sampleSize bits ≤ stdin.length) :
    countPhase bits stream0 stdin
      = .ok (tallied (bumpedUpTo bits lutTable stdin (2 ^ bits)) (2 ^ bits)) := by
  unfold countPhase
  simp only [buildLUT_eq, decode_ok bits lutTable stream0 stdin hb hs hlen]
  have hl : 2 ^ (bits - 2) ≤ (decodeEnd bits lutTable stdin).indegree.length := by
    simp [decodeEnd, length_bumpedUpTo]
  simp only [aggregate_eq bits hb _ hl, checkSum_tallied bits hb]
  rfl

theorem countPhase_short (bits stream0 : Nat) (stdin : List Byte)
    (hb : bits = 8 ∨ bits = 16 ∨ bits = 24 ∨ bits = 32)
    (hs : bits = 16 ∨ bits = 24 → stream0 < 2 ^ bits)
    (hlen : stdin.length < 2 ^ bits * sampleSize bits) :
    countPhase bits stream0 stdin = .error .shortRead := by
  unfold countPhase
  simp only [buildLUT_eq, decode_short bits lutTable stream0 stdin hb hs hlen]

/-- The counting phase with the table replaced by its closed form. -/
theorem countPhase_eq (bits stream0 : Nat) (stdin : List Byte) :
    countPhase bits stream0 stdin =
      match decode bits lutTable stream0 stdin with
      | .error e => .error e
      | .ok d =>
        match aggregate bits d.indegree with
        | .error e => .error e
        | .ok counts =>
          match checkSum bits counts with
          | .error e => .error e
          | .ok _ => .ok counts := by
  unfold countPhase
  rw [buildLUT_eq]

/-! ## Claims C1 - C6 -/

set_option maxRecDepth 1000000 in
/-- C1, evaluated on the code: for `n = 8` and the input of 256 bytes all equal
to 1, the run ends with `counts = [252, 0, 0, 4]`, whereas node 1 is the only
node that occurs (256 times), so that the bucket totals of the specification are
`[255, 0, 0, 1]`. -/
theorem countPhase_all_ones :
    countPhase 8 0 (List.replicate 256 1) = .ok [252, 0, 0, 4] ∧
      specCounts 8 (samples8 (List.replicate 256 1)) = [255, 0, 0, 1] := by
  rw [countPhase_eq]
  decide!

/-- C2, evaluated on the code: `LUT[1][1]` is 8 (field 0 cleared, field 1 set to
2), whereas the byte 1 with only field 1 incremented is 5. -/
theorem LUT_slot1_byte1 : lutGet LUT 1 1 = 8 ∧ specIncrement 1 1 = 5 := by
  rw [LUT_eq]
  decide!

set_option maxRecDepth 1000000 in
/-- C3, evaluated on the code: for `n = 8`, exchanging the first two samples of
the input `0, 1, 0, 0, …, 0` (they target the different nodes 0 and 1) changes
the bucket totals from `[254, 0, 1, 1]` to `[254, 1, 0, 1]`. -/
theorem countPhase_swap :
    List.Perm (0 :: 1 :: List.replicate 254 (0 : Byte)) (1 :: 0 :: List.replicate 254 0) ∧
      countPhase 8 0 (0 :: 1 :: List.replicate 254 0) = .ok [254, 0, 1, 1] ∧
      countPhase 8 0 (1 :: 0 :: List.replicate 254 0) = .ok [254, 1, 0, 1] := by
  refine ⟨List.Perm.swap _ _ _, ?_, ?_⟩
  · rw [countPhase_eq]
    decide!
  · rw [countPhase_eq]
    decide!

set_option maxRecDepth 1000000 in
/-- C4, evaluated on the code: field 0 of `LUT[1][1]` is 0 while field 0 of the
byte 1 is 1; in the decode pass for `n = 8` on the input `0, 1, 0, …, 0` the
first step takes the counter of node 0 from 0 to 1 and the second step, which
processes the sample 1, takes it from 1 back to 0 (byte 0 goes from 1 to 8). -/
theorem counter_of_node0_decreases :
    field (lutGet LUT 1 1) 0 = 0 ∧ field 1 0 = 1 ∧
      decodeStep 8 LUT ⟨0, 0, List.replicate 64 0, 0 :: 1 :: List.replicate 254 0⟩
        = .ok (⟨1, 0, 1 :: List.replicate 63 0, 1 :: List.replicate 254 0⟩, true) ∧
      decodeStep 8 LUT ⟨1, 0, 1 :: List.replicate 63 0, 1 :: List.replicate 254 0⟩
        = .ok (⟨2, 1, 8 :: List.replicate 63 0, List.replicate 254 0⟩, true) ∧
      field 8 0 = 0 := by
  rw [LUT_eq]
  decide!

/-- C5, evaluated on the code: field 1 of the byte 12 is 3, and `LUT[1][12]` is
52, not 12: fields 1 and 2 of the result are 1 and 3. -/
theorem LUT_slot1_byte12 :
    field 12 1 = 3 ∧ lutGet LUT 1 12 = 52 ∧ field 52 1 = 1 ∧ field 52 2 = 3 := by
  rw [LUT_eq]
  decide!

/-- C6: for every supported `bits` and every content of a counter array of
`2^(bits-2)` bytes, the aggregation loop ends with `counts` of sum `2^bits`, the
assertion of line 143 holds, and `(unsigned long long)1U<<bits` is `2^bits`
(for `bits = 32`: `2^32`, no reduction modulo `2^64` takes place). -/
theorem aggregate_conserves (bits : Nat) (indegree : List Nat)
    (hb : bits = 8 ∨ bits = 16 ∨ bits = 24 ∨ bits = 32)
    (hlen : indegree.length = 2 ^ (bits - 2)) :
    ∃ counts, aggregate bits indegree = .ok counts ∧ counts.length = 4 ∧
      counts.getD 0 0 + counts.getD 1 0 + counts.getD 2 0 + counts.getD 3 0 = 2 ^ bits ∧
      checkSum bits counts = .ok () ∧ u64 (1 <<< bits) = 2 ^ bits ∧
      u64 (1 <<< 32) = 4294967296 := by
  refine ⟨tallied indegree (2 ^ bits), aggregate_eq bits hb indegree (le_of_eq hlen.symm), rfl,
    ?_, checkSum_tallied bits hb indegree, ?_, by decide⟩
  · simpa [tallied] using bucketCount_total indegree (2 ^ bits)
  · have h32 : 2 ^ bits ≤ 2 ^ 32 := Nat.pow_le_pow_right (by norm_num) (by omega)
    rw [Nat.one_shiftLeft]
    exact Nat.mod_eq_of_lt (by omega)

/-- Witness of `aggregate_conserves` on the zeroed 64-byte array of `n = 8`. -/
theorem aggregate_conserves_witness :
    (8 = 8 ∨ 8 = 16 ∨ 8 = 24 ∨ 8 = 32) ∧ (List.replicate 64 0).length = 2 ^ (8 - 2) ∧
      ∃ counts, aggregate 8 (List.replicate 64 0) = .ok counts ∧ counts.length = 4 ∧
        counts.getD 0 0 + counts.getD 1 0 + counts.getD 2 0 + counts.getD 3 0 = 2 ^ 8 ∧
        checkSum 8 counts = .ok () ∧ u64 (1 <<< 8) = 2 ^ 8 ∧ u64 (1 <<< 32) = 4294967296 :=
  ⟨by decide, by decide, aggregate_conserves 8 (List.replicate 64 0) (by decide) (by decide)⟩

/-! ## Claim C7 -/

/-- With 2 degrees of freedom `gsl_cdf_chisq_P` has the closed form
`1 - exp (-x/2)` on the non-negative reals. -/
theorem gsl_cdf_chisq_P_two (x : ℝ) :
    realMath.gsl_cdf_chisq_P x 2 = if 0 ≤ x then 1 - Real.exp (-(x / 2)) else 0 := by
  have h : realMath.gsl_cdf_chisq_P x 2 = ProbabilityTheory.exponentialCDFReal (1 / 2) x := by
    show ProbabilityTheory.gammaCDFReal (2 / 2) (1 / 2) x
      = ProbabilityTheory.exponentialCDFReal (1 / 2) x
    rw [div_self (two_ne_zero : (2 : ℝ) ≠ 0)]
    rfl
  rw [h, ProbabilityTheory.exponentialCDFReal_eq (by norm_num) x]
  have e : (1 / 2 : ℝ) * x = x / 2 := by ring
  rw [e]

theorem expecteds_getD_nonneg (bits i : Nat) : 0 ≤ (expecteds realMath bits).getD i 0 := by
  have he : (2.5 : ℝ) < Real.exp 1 := lt_trans (by norm_num) Real.exp_one_gt_d9
  have hpos : (0 : ℝ) < Real.exp 1 := Real.exp_pos 1
  have hN : (0 : ℝ) ≤ ((u64 (1 <<< bits) : Nat) : ℝ) := Nat.cast_nonneg _
  have hdef : expecteds realMath bits
      = [((u64 (1 <<< bits) : Nat) : ℝ) / Real.exp 1, ((u64 (1 <<< bits) : Nat) : ℝ) / Real.exp 1,
          ((u64 (1 <<< bits) : Nat) : ℝ) / Real.exp 1 / 2,
          ((u64 (1 <<< bits) : Nat) : ℝ) - ((u64 (1 <<< bits) : Nat) : ℝ) / Real.exp 1
            - ((u64 (1 <<< bits) : Nat) : ℝ) / Real.exp 1
            - ((u64 (1 <<< bits) : Nat) : ℝ) / Real.exp 1 / 2] := rfl
  rw [hdef]
  generalize ((u64 (1 <<< bits) : Nat) : ℝ) = N at hN ⊢
  have h0 : 0 ≤ N / Real.exp 1 := div_nonneg hN hpos.le
  have h3 : 0 ≤ N - N / Real.exp 1 - N / Real.exp 1 - N / Real.exp 1 / 2 := by
    have : N - N / Real.exp 1 - N / Real.exp 1 - N / Real.exp 1 / 2
        = N / Real.exp 1 * (Real.exp 1 - 2.5) := by
      field_simp
      ring
    rw [this]
    exact mul_nonneg h0 (by linarith)
  match i with
  | 0 => simpa using h0
  | 1 => simpa using h0
  | 2 => simpa using div_nonneg h0 (by norm_num : (0 : ℝ) ≤ 2)
  | 3 => simpa using h3
  | _ + 4 => simp

theorem chi2_eq (bits : Nat) (counts : List Nat) :
    chi2 realMath bits counts =
      ((counts.getD 0 0 : ℝ) - (expecteds realMath bits).getD 0 0)
          * ((counts.getD 0 0 : ℝ) - (expecteds realMath bits).getD 0 0)
          / (expecteds realMath bits).getD 0 0
        + ((counts.getD 1 0 : ℝ) - (expecteds realMath bits).getD 1 0)
          * ((counts.getD 1 0 : ℝ) - (expecteds realMath bits).getD 1 0)
          / (expecteds realMath bits).getD 1 0
        + ((counts.getD 2 0 : ℝ) - (expecteds realMath bits).getD 2 0)
          * ((counts.getD 2 0 : ℝ) - (expecteds realMath bits).getD 2 0)
          / (expecteds realMath bits).getD 2 0
        + ((counts.getD 3 0 : ℝ) - (expecteds realMath bits).getD 3 0)
          * ((counts.getD 3 0 : ℝ) - (expecteds realMath bits).getD 3 0)
          / (expecteds realMath bits).getD 3 0 := by
  have h4 : List.range 4 = [0, 1, 2, 3] := by decide
  unfold chi2
  rw [h4]
  simp only [List.foldl_cons, List.foldl_nil, zero_add]

theorem chi2_nonneg (bits : Nat) (counts : List Nat) : 0 ≤ chi2 realMath bits counts := by
  rw [chi2_eq]
  have t : ∀ i, 0 ≤ ((counts.getD i 0 : ℝ) - (expecteds realMath bits).getD i 0)
      * ((counts.getD i 0 : ℝ) - (expecteds realMath bits).getD i 0)
      / (expecteds realMath bits).getD i 0 :=
    fun i => div_nonneg (mul_self_nonneg _) (expecteds_getD_nonneg bits i)
  have := t 0
  have := t 1
  have := t 2
  have := t 3
  linarith

theorem pval_lower_tail_aux (bits : Nat) (counts : List Nat) :
    pval realMath bits counts = 1 - Real.exp (-(chi2 realMath bits counts / 2)) := by
  unfold pval
  rw [gsl_cdf_chisq_P_two, if_pos (chi2_nonneg bits counts)]

/-- Lines 144-148 over the reals: the four expected values for `N = 2^bits`. -/
theorem expecteds_realMath_eq (bits : Nat)
    (hb : bits = 8 ∨ bits = 16 ∨ bits = 24 ∨ bits = 32) :
    expecteds realMath bits
      = [(2 : ℝ) ^ bits / Real.exp 1, (2 : ℝ) ^ bits / Real.exp 1,
          (2 : ℝ) ^ bits / Real.exp 1 / 2,
          (2 : ℝ) ^ bits - (2 : ℝ) ^ bits / Real.exp 1 - (2 : ℝ) ^ bits / Real.exp 1
            - (2 : ℝ) ^ bits / Real.exp 1 / 2] := by
  have h32 : 2 ^ bits ≤ 2 ^ 32 := Nat.pow_le_pow_right (by norm_num) (by omega)
  have hu : u64 (1 <<< bits) = 2 ^ bits := by
    rw [Nat.one_shiftLeft]
    exact Nat.mod_eq_of_lt (by omega)
  have hN : ((u64 (1 <<< bits) : Nat) : ℝ) = (2 : ℝ) ^ bits := by
    rw [hu]
    push_cast
    rfl
  rw [← hN]
  rfl

/-- C7 as amended: over exact real arithmetic, for a supported `bits`, the
expected values are `E = [N/e, N/e, N/(2e), N - E0 - E1 - E2]` with `N = 2^bits`,
the statistic is `chi2 = Σ_{i<4} (counts[i] - E_i)^2 / E_i`, and the value
printed as p-value is `1 - exp (-chi2/2)`, the probability that a chi-squared
variable with 2 degrees of freedom is at most `chi2` (lower tail); it is 0 at
`chi2 = 0` and strictly increasing in `chi2 ≥ 0`. -/
theorem pval_lower_tail (bits : Nat) (counts : List Nat)
    (hb : bits = 8 ∨ bits = 16 ∨ bits = 24 ∨ bits = 32) :
    expecteds realMath bits
        = [(2 : ℝ) ^ bits / Real.exp 1, (2 : ℝ) ^ bits / Real.exp 1,
            (2 : ℝ) ^ bits / Real.exp 1 / 2,
            (2 : ℝ) ^ bits - (2 : ℝ) ^ bits / Real.exp 1 - (2 : ℝ) ^ bits / Real.exp 1
              - (2 : ℝ) ^ bits / Real.exp 1 / 2] ∧
      chi2 realMath bits counts
        = ∑ i in Finset.range 4,
            (((counts.getD i 0 : Nat) : ℝ) - (expecteds realMath bits).getD i 0) ^ 2
              / (expecteds realMath bits).getD i 0 ∧
      pval realMath bits counts
        = 1 - Real.exp (-(∑ i in Finset.range 4,
            (((counts.getD i 0 : Nat) : ℝ) - (expecteds realMath bits).getD i 0) ^ 2
              / (expecteds realMath bits).getD i 0) / 2) ∧
      pval realMath bits counts
        = ((ProbabilityTheory.gammaMeasure 1 (1 / 2)) (Set.Iic (chi2 realMath bits counts))).toReal ∧
      realMath.gsl_cdf_chisq_P 0 2 = 0 ∧
      StrictMonoOn (fun x => realMath.gsl_cdf_chisq_P x 2) (Set.Ici 0) := by
  have hsum : chi2 realMath bits counts
      = ∑ i in Finset.range 4,
          (((counts.getD i 0 : Nat) : ℝ) - (expecteds realMath bits).getD i 0) ^ 2
            / (expecteds realMath bits).getD i 0 := by
    rw [chi2_eq]
    simp only [Finset.sum_range_succ, Finset.sum_range_zero, zero_add, pow_two]
  refine ⟨expecteds_realMath_eq bits hb, hsum, ?_, ?_, ?_, ?_⟩
  · rw [← hsum, pval_lower_tail_aux bits counts, neg_div]
  · have : MeasureTheory.IsProbabilityMeasure (ProbabilityTheory.gammaMeasure 1 (1 / 2)) :=
      ProbabilityTheory.isProbabilityMeasureGamma zero_lt_one (by norm_num)
    rw [← ProbabilityTheory.cdf_eq_toReal]
    show ProbabilityTheory.gammaCDFReal (2 / 2) (1 / 2) _ = _
    rw [div_self (two_ne_zero : (2 : ℝ) ≠ 0)]
    rfl
  · rw [gsl_cdf_chisq_P_two]
    simp
  · intro x hx y hy hxy
    have hx0 : (0 : ℝ) ≤ x := hx
    have hy0 : (0 : ℝ) ≤ y := hy
    simp only [gsl_cdf_chisq_P_two, if_pos hx0, if_pos hy0]
    have : Real.exp (-(y / 2)) < Real.exp (-(x / 2)) := Real.exp_lt_exp.mpr (by linarith)
    linarith

/-- Witness of `pval_lower_tail`: `n = 8` with the counts `[255, 0, 0, 1]` of the
all-zero input. -/
theorem pval_lower_tail_witness :
    (8 = 8 ∨ 8 = 16 ∨ 8 = 24 ∨ 8 = 32) ∧
      chi2 realMath 8 [255, 0, 0, 1]
        = ∑ i in Finset.range 4,
            (((([255, 0, 0, 1] : List Nat).getD i 0 : Nat) : ℝ)
              - (expecteds realMath 8).getD i 0) ^ 2 / (expecteds realMath 8).getD i 0 ∧
      pval realMath 8 [255, 0, 0, 1]
        = 1 - Real.exp (-(∑ i in Finset.range 4,
            (((([255, 0, 0, 1] : List Nat).getD i 0 : Nat) : ℝ)
              - (expecteds realMath 8).getD i 0) ^ 2 / (expecteds realMath 8).getD i 0) / 2) :=
  ⟨by decide, (pval_lower_tail 8 [255, 0, 0, 1] (by decide)).2.1,
    (pval_lower_tail 8 [255, 0, 0, 1] (by decide)).2.2.1⟩

/-- C7 as stated fails on the code: at `chi2 = 0` the function called on line
156 returns 0, not 1, and for the counts `[255, 0, 0, 1]` of the all-zero
`n = 8` input the p-value exceeds 1/2 while `exp (-chi2/2)` is below 1/2. -/
theorem pval_not_upper_tail :
    realMath.gsl_cdf_chisq_P 0 2 = 0 ∧ Real.exp (-(0 : ℝ) / 2) = 1 ∧
      Real.exp (-(chi2 realMath 8 [255, 0, 0, 1]) / 2) < 1 / 2 ∧
      1 / 2 < pval realMath 8 [255, 0, 0, 1] := by
  have hc : 2 ≤ chi2 realMath 8 [255, 0, 0, 1] := by
    rw [chi2_eq]
    have t : ∀ i, 0 ≤ (((([255, 0, 0, 1] : List Nat).getD i 0 : Nat) : ℝ)
        - (expecteds realMath 8).getD i 0)
        * (((([255, 0, 0, 1] : List Nat).getD i 0 : Nat) : ℝ) - (expecteds realMath 8).getD i 0)
        / (expecteds realMath 8).getD i 0 :=
      fun i => div_nonneg (mul_self_nonneg _) (expecteds_getD_nonneg 8 i)
    have t0 := t 0
    have t2 := t 2
    have t3 := t 3
    have hE : (expecteds realMath 8).getD 1 0 = 256 / Real.exp 1 := by
      have h256 : u64 (1 <<< 8) = 256 := by decide
      show ((u64 (1 <<< 8) : Nat) : ℝ) / Real.exp 1 = 256 / Real.exp 1
      rw [h256]
      norm_num
    have hpos : (0 : ℝ) < Real.exp 1 := Real.exp_pos 1
    have he : Real.exp 1 < 3 := lt_trans Real.exp_one_lt_d9 (by norm_num)
    have t1 : 2 ≤ (((([255, 0, 0, 1] : List Nat).getD 1 0 : Nat) : ℝ)
        - (expecteds realMath 8).getD 1 0)
        * (((([255, 0, 0, 1] : List Nat).getD 1 0 : Nat) : ℝ) - (expecteds realMath 8).getD 1 0)
        / (expecteds realMath 8).getD 1 0 := by
      rw [hE]
      have h1 : ((([255, 0, 0, 1] : List Nat).getD 1 0 : Nat) : ℝ) = 0 := by simp
      rw [h1]
      have : (0 - 256 / Real.exp 1) * (0 - 256 / Real.exp 1) / (256 / Real.exp 1)
          = 256 / Real.exp 1 := by
        field_simp
        ring
      rw [this, le_div_iff₀ hpos]
      linarith
    linarith
  have hexp : Real.exp (-(chi2 realMath 8 [255, 0, 0, 1] / 2)) < 1 / 2 := by
    have h1 : Real.exp (-(chi2 realMath 8 [255, 0, 0, 1] / 2)) ≤ Real.exp (-1) :=
      Real.exp_le_exp.mpr (by linarith)
    have h2 : Real.exp (-1) < 1 / 2 := by
      rw [Real.exp_neg, inv_eq_one_div]
      have he : (2 : ℝ) < Real.exp 1 := lt_trans (by norm_num) Real.exp_one_gt_d9
      exact one_div_lt_one_div_of_lt (by norm_num) he
    exact lt_of_le_of_lt h1 h2
  refine ⟨?_, ?_, ?_, ?_⟩
  · rw [gsl_cdf_chisq_P_two]
    simp
  · simp
  · rw [neg_div]
    exact hexp
  · rw [(pval_lower_tail_aux 8 [255, 0, 0, 1])]
    linarith

/-! ## Claim C8 -/

/-- C8 as amended: the verdict is "Pass" exactly when `p` lies strictly between
the two stored limits of the row `bits / 8 - 1` of `empirical_limits`, and "Fail"
otherwise; the stored limits are the binary64 numbers nearest to the decimals
0.0135050 and 0.994718 (`bits = 8`), 0.0107605 and 0.995029 (16), 0.0111855 and
0.995167 (24), 0.005 and 0.995 (32): each has a 53-bit significand and lies
within half a unit in the last place of its decimal. -/
theorem verdict_pass_iff {α : Type} [LinearOrderedField α] (p : α) :
    (verdict 8 p = "Pass" ↔ 7785102459857734 / 2 ^ 59 < p ∧ p < 8959623228277450 / 2 ^ 53) ∧
    (verdict 16 p = "Pass" ↔ 6203005925160988 / 2 ^ 59 < p ∧ p < 8962424467245675 / 2 ^ 53) ∧
    (verdict 24 p = "Pass" ↔ 6448001744889943 / 2 ^ 59 < p ∧ p < 8963667460742829 / 2 ^ 53) ∧
    (verdict 32 p = "Pass" ↔ 5764607523034235 / 2 ^ 60 < p ∧ p < 8962163258467287 / 2 ^ 53) ∧
    (∀ bits, verdict bits p = "Pass" ∨ verdict bits p = "Fail") ∧
    (empirical_limits.getD (8 / 8 - 1) (0, 0)
      = ((7785102459857734 / 2 ^ 59 : α), (8959623228277450 / 2 ^ 53 : α))) ∧
    (empirical_limits.getD (16 / 8 - 1) (0, 0)
      = ((6203005925160988 / 2 ^ 59 : α), (8962424467245675 / 2 ^ 53 : α))) ∧
    (empirical_limits.getD (24 / 8 - 1) (0, 0)
      = ((6448001744889943 / 2 ^ 59 : α), (8963667460742829 / 2 ^ 53 : α))) ∧
    (empirical_limits.getD (32 / 8 - 1) (0, 0)
      = ((5764607523034235 / 2 ^ 60 : α), (8962163258467287 / 2 ^ 53 : α))) ∧
    (|(7785102459857734 / 2 ^ 59 : α) - 0.0135050| < 1 / 2 ^ 60 ∧
      |(8959623228277450 / 2 ^ 53 : α) - 0.994718| < 1 / 2 ^ 54 ∧
      |(6203005925160988 / 2 ^ 59 : α) - 0.0107605| < 1 / 2 ^ 60 ∧
      |(8962424467245675 / 2 ^ 53 : α) - 0.995029| < 1 / 2 ^ 54 ∧
      |(6448001744889943 / 2 ^ 59 : α) - 0.0111855| < 1 / 2 ^ 60 ∧
      |(8963667460742829 / 2 ^ 53 : α) - 0.995167| < 1 / 2 ^ 54 ∧
      |(5764607523034235 / 2 ^ 60 : α) - 0.005| < 1 / 2 ^ 61 ∧
      |(8962163258467287 / 2 ^ 53 : α) - 0.995| < 1 / 2 ^ 54) ∧
    (∀ m ∈ [7785102459857734, 8959623228277450, 6203005925160988, 8962424467245675,
        6448001744889943, 8963667460742829, 5764607523034235, 8962163258467287],
      2 ^ 52 ≤ m ∧ m < 2 ^ 53) := by
  have key : ∀ (lo hi : α), ((if lo < p ∧ p < hi then "Pass" else "Fail") = "Pass"
      ↔ lo < p ∧ p < hi) := by
    intro lo hi
    by_cases h : lo < p ∧ p < hi
    · simp [h]
    · simp only [if_neg h, h, iff_false]
      decide
  refine ⟨key _ _, key _ _, key _ _, key _ _, ?_, rfl, rfl, rfl, rfl, ?_, by decide⟩
  · intro bits
    unfold verdict
    simp only
    split
    · exact Or.inl rfl
    · exact Or.inr rfl
  · refine ⟨?_, ?_, ?_, ?_, ?_, ?_, ?_, ?_⟩ <;> rw [abs_lt] <;> constructor <;> norm_num

/-- C8 as stated fails on the code: for `bits = 8` the stored upper limit lies
below the decimal 0.994718, and for `bits = 32` the stored lower limit lies above
the decimal 0.005; a p-value equal to either stored limit lies strictly between
the decimals of its row, and the verdict is "Fail". -/
theorem verdict_at_stored_limit :
    ((0.0135050 : ℚ) < 8959623228277450 / 2 ^ 53 ∧
        (8959623228277450 / 2 ^ 53 : ℚ) < 0.994718 ∧
        verdict 8 (8959623228277450 / 2 ^ 53 : ℚ) = "Fail") ∧
      ((0.005 : ℚ) < 5764607523034235 / 2 ^ 60 ∧
        (5764607523034235 / 2 ^ 60 : ℚ) < 0.995 ∧
        verdict 32 (5764607523034235 / 2 ^ 60 : ℚ) = "Fail") := by
  refine ⟨⟨by norm_num, by norm_num, ?_⟩, ⟨by norm_num, by norm_num, ?_⟩⟩
  · unfold verdict
    simp only
    rw [if_neg]
    intro h
    have h2 := h.2
    simp [empirical_limits] at h2
  · unfold verdict
    simp only
    rw [if_neg]
    intro h
    have h1 := h.1
    simp [empirical_limits] at h1

/-! ## Claim C9: input length and the outcome of a run -/

theorem mainResolved_error {α : Type} [LinearOrderedField α] (m : Numerics α)
    (bits stream0 : Nat) (stdin : List Byte) (e : Err)
    (h : countPhase bits stream0 stdin = .error e) :
    mainResolved m bits stream0 stdin = ([], .error e) := by
  unfold mainResolved
  rw [h]

theorem mainResolved_ok {α : Type} [LinearOrderedField α] (m : Numerics α)
    (bits stream0 : Nat) (stdin : List Byte) (counts : List Nat)
    (h : countPhase bits stream0 stdin = .ok counts) :
    mainResolved m bits stream0 stdin = (report m bits counts, .ok ()) := by
  unfold mainResolved
  rw [h]

theorem countPhase_decode_error (bits stream0 : Nat) (stdin : List Byte) (e : Err)
    (h : decode bits lutTable stream0 stdin = .error e) :
    countPhase bits stream0 stdin = .error e := by
  rw [countPhase_eq, h]

/-- With the bytes of `stream` that the 2- and 3-byte reads leave unwritten
equal to zero, a run on fewer than `2^bits * (bits/8)` input bytes (a partial
last sample included) stops on the read assertion with nothing written to
standard output, and a run on at least that many bytes reaches `return 0`; its
output is the report of the counts, produced after the counting phase. -/
theorem run_truncation {α : Type} [LinearOrderedField α] (m : Numerics α) (bits stream0 : Nat)
    (stdin : List Byte) (hb : bits = 8 ∨ bits = 16 ∨ bits = 24 ∨ bits = 32)
    (hs : bits = 16 ∨ bits = 24 → stream0 < 2 ^ bits) :
    (stdin.length < 2 ^ bits * (bits / 8) →
      countPhase bits stream0 stdin = .error .shortRead ∧
      mainResolved m bits stream0 stdin = ([], .error .shortRead)) ∧
    (2 ^ bits * (bits / 8) ≤ stdin.length →
      ∃ counts, countPhase bits stream0 stdin = .ok counts ∧
        mainResolved m bits stream0 stdin = (report m bits counts, .ok ()) ∧
        (report m bits counts).length = 7) := by
  constructor
  · intro hlen
    have h := countPhase_short bits stream0 stdin hb hs hlen
    exact ⟨h, mainResolved_error m bits stream0 stdin _ h⟩
  · intro hlen
    have h := countPhase_ok bits stream0 stdin hb hs hlen
    exact ⟨_, h, mainResolved_ok m bits stream0 stdin _ h, by simp [report]⟩

/-- For `n = 16`, when `stream` holds a value of `2^16` or more before the first
read and two bytes can be read, the first sample indexes the counter array
beyond its `2^14` bytes. -/
theorem decode16_outOfBounds (lut : List Nat) (stream0 : Nat) (stdin : List Byte)
    (h0 : 2 ^ 16 ≤ stream0) (h1 : stream0 < 2 ^ 32) (hlen : 2 ≤ stdin.length) :
    decode 16 lut stream0 stdin = .error .outOfBounds := by
  have hv := leValue_take_lt stdin 2
  have hd : 1 ≤ stream0 / 256 ^ 2 := (Nat.one_le_div_iff (by norm_num)).mpr (by norm_num at h0 ⊢; omega)
  have hm : stream0 / 256 ^ 2 * 256 ^ 2 ≤ stream0 := Nat.div_mul_le_self _ _
  have hr : readSample 16 stream0 stdin
      = (1, stream0 / 256 ^ 2 * 256 ^ 2 + leValue (stdin.take 2), stdin.drop 2) := by
    simp only [readSample, fread, if_pos hlen, u32]
    rw [Nat.mod_eq_of_lt (by norm_num at hv h1 hm ⊢; omega)]
  have hidx : 2 ^ (16 - 2) ≤ (stream0 / 256 ^ 2 * 256 ^ 2 + leValue (stdin.take 2)) >>> 2 := by
    rw [Nat.shiftRight_eq_div_pow, Nat.le_div_iff_mul_le (by norm_num)]
    have : 256 ^ 2 ≤ stream0 / 256 ^ 2 * 256 ^ 2 := Nat.le_mul_of_pos_left _ hd
    norm_num at this ⊢
    omega
  unfold decode
  rw [if_pos (by decide)]
  refine doWhile_inv (decodeStep 16 lut)
    (fun _ d => d = ⟨0, stream0, List.replicate (2 ^ (16 - 2)) 0, stdin⟩)
    (fun r => r = .error .outOfBounds) 0 (fun j _ hj => absurd hj (by omega)) ?_
    0 0 loopFuel _ rfl (by decide) rfl
  rintro d rfl
  left
  exact ⟨_, decodeStep_outOfBounds 16 lut _ _ _ hr (by rw [List.length_replicate]; exact hidx), rfl⟩

/-- C9, evaluated on the code: for `n = 16`, on an input of `2^16 * 2` bytes
(all zero) with `stream` holding `0xFFFF0000` before the first read, the run does
not complete: the first read, of the bytes `0, 0`, leaves `stream = 0xFFFF0000`,
and the access `indegree[0x3FFFC000]` lies about 1 GiB past the `2^14` bytes of
the array. -/
theorem run_full_input_outOfBounds :
    (List.replicate 131072 (0 : Byte)).length = 2 ^ 16 * (16 / 8) ∧
      (List.replicate 131072 (0 : Byte)).take 2 = [0, 0] ∧
      readSample 16 0xFFFF0000 [0, 0] = (1, 0xFFFF0000, []) ∧
      0xFFFF0000 >>> 2 = 0x3FFFC000 ∧ 2 ^ (16 - 2) + 2 ^ 30 - 2 ^ 15 ≤ 0x3FFFC000 ∧
      countPhase 16 0xFFFF0000 (List.replicate 131072 0) = .error .outOfBounds ∧
      mainResolved realMath 16 0xFFFF0000 (List.replicate 131072 0)
        = ([], .error .outOfBounds) := by
  have hl : (List.replicate 131072 (0 : Byte)).length = 131072 := List.length_replicate _ _
  have hd := decode16_outOfBounds lutTable 0xFFFF0000 (List.replicate 131072 0) (by decide)
    (by decide) (by rw [hl]; decide)
  have hc := countPhase_decode_error 16 0xFFFF0000 (List.replicate 131072 0) _ hd
  have ht : (List.replicate 131072 (0 : Byte)).take 2 = [0, 0] := by
    rw [List.take_replicate]
    rfl
  exact ⟨by rw [hl]; norm_num, ht, by decide, by decide, by decide, hc,
    mainResolved_error realMath 16 0xFFFF0000 _ _ hc⟩

/-! ## Claim C10 -/

/-- C10, evaluated on the code: for `n = 16`, when `stream` holds `0x10000`
before the read of the bytes `0x34, 0x12`, the sample is `0x11234`, which is not
below `2^16` (the little-endian value of the two bytes is `0x1234`), and the
decode step built on it indexes the 16384-byte array at `0x448d`. -/
theorem readSample_keeps_high_bytes :
    readSample 16 0x10000 [0x34, 0x12] = (1, 0x11234, []) ∧ ¬ (0x11234 < 2 ^ 16) ∧
      specSample 2 [0x34, 0x12] 0 = 0x1234 ∧
      0x11234 >>> 2 = 0x448d ∧ (List.replicate (2 ^ (16 - 2)) 0).length = 16384 ∧
      decodeStep 16 LUT ⟨0, 0x10000, List.replicate (2 ^ (16 - 2)) 0, [0x34, 0x12]⟩
        = .error .outOfBounds := by
  have hlen : (List.replicate (2 ^ (16 - 2)) 0).length = 16384 := by
    rw [List.length_replicate]
    rfl
  refine ⟨by decide, by decide, by decide, by decide, hlen, ?_⟩
  exact decodeStep_outOfBounds 16 LUT _ 0x11234 [] (by decide) (by rw [hlen]; decide)

/-! ## Counting the iterations of a loop -/

/-- Under the assumptions of `doWhile_inv` the body runs exactly `N + 1` times,
and the state before iteration `i` satisfies `P i`. -/
theorem doWhileTrace_inv {σ : Type} (body : σ → Except Err (σ × Bool)) (P : Nat → σ → Prop)
    (N : Nat)
    (hstep : ∀ j s, j < N → P j s → ∃ s', body s = .ok (s', true) ∧ P (j + 1) s')
    (hlast : ∀ s s', P N s → body s ≠ .ok (s', true)) :
    ∀ (k j fuel : Nat) (s : σ), j + k = N → k < fuel → P j s →
      (doWhileTrace body fuel s).length = k + 1 ∧
      ∀ i (h : i < (doWhileTrace body fuel s).length),
        P (j + i) ((doWhileTrace body fuel s).get ⟨i, h⟩) := by
  intro k
  induction k with
  | zero =>
    intro j fuel s hj hf hP
    have hjN : j = N := by omega
    subst hjN
    obtain ⟨f, rfl⟩ : ∃ f, fuel = f + 1 := ⟨fuel - 1, by omega⟩
    have hnil : doWhileTrace body (f + 1) s = [s] := by
      unfold doWhileTrace
      split
      · rename_i s' heq
        exact absurd heq (hlast s s' hP)
      · rfl
    rw [hnil]
    refine ⟨rfl, ?_⟩
    intro i h
    have hi : i = 0 := by simpa using h
    subst hi
    simpa using hP
  | succ k ih =>
    intro j fuel s hj hf hP
    obtain ⟨f, rfl⟩ : ∃ f, fuel = f + 1 := ⟨fuel - 1, by omega⟩
    obtain ⟨s', hs, hP'⟩ := hstep j s (by omega) hP
    have hcons : doWhileTrace body (f + 1) s = s :: doWhileTrace body f s' := by
      rw [doWhileTrace, hs]
    obtain ⟨hl, hall⟩ := ih (j + 1) f s' (by omega) (by omega) hP'
    rw [hcons]
    refine ⟨by simp [hl], ?_⟩
    intro i h
    cases i with
    | zero => simpa using hP
    | succ i =>
      have h' : i < (doWhileTrace body f s').length := by simpa using h
      have := hall i h'
      have e : j + (i + 1) = j + 1 + i := by omega
      rw [e]
      simpa using this

/-- An invariant kept by every continuing iteration holds before each iteration
of the loop, whether or not the loop ends normally; `Q` holds of the state in
which the loop ends when it does. -/
theorem doWhileTrace_any {σ : Type} (body : σ → Except Err (σ × Bool)) (P : Nat → σ → Prop)
    (Q : σ → Prop)
    (hstep : ∀ j s t, P j s → body s = .ok (t, true) → P (j + 1) t)
    (hfin : ∀ j s t, P j s → body s = .ok (t, false) → Q t) :
    ∀ (fuel j : Nat) (s : σ), P j s →
      (∀ i (h : i < (doWhileTrace body fuel s).length),
        P (j + i) ((doWhileTrace body fuel s).get ⟨i, h⟩)) ∧
      ∀ s', doWhile body fuel s = .ok s' → Q s' := by
  intro fuel
  induction fuel with
  | zero =>
    intro j s _
    refine ⟨fun i h => absurd h (by simp [doWhileTrace]), ?_⟩
    intro s' h
    simp [doWhile] at h
  | succ f ih =>
    intro j s hP
    cases hb : body s with
    | error e =>
      have ht : doWhileTrace body (f + 1) s = [s] := by rw [doWhileTrace, hb]
      rw [ht]
      refine ⟨?_, ?_⟩
      · intro i h
        have hi : i = 0 := by simpa using h
        subst hi
        simpa using hP
      · intro s' h
        simp [doWhile, hb] at h
    | ok r =>
      obtain ⟨t, c⟩ := r
      cases c with
      | false =>
        have ht : doWhileTrace body (f + 1) s = [s] := by rw [doWhileTrace, hb]
        rw [ht]
        refine ⟨?_, ?_⟩
        · intro i h
          have hi : i = 0 := by simpa using h
          subst hi
          simpa using hP
        · intro s' h
          simp only [doWhile, hb] at h
          cases h
          exact hfin j s t hP hb
      | true =>
        have ht : doWhileTrace body (f + 1) s = s :: doWhileTrace body f t := by
          rw [doWhileTrace, hb]
        obtain ⟨hall, hq⟩ := ih (j + 1) t (hstep j s t hP hb)
        rw [ht]
        refine ⟨?_, ?_⟩
        · intro i h
          cases i with
          | zero => simpa using hP
          | succ i =>
            have h' : i < (doWhileTrace body f t).length := by simpa using h
            have := hall i h'
            have e : j + (i + 1) = j + 1 + i := by omega
            rw [e]
            simpa using this
        · intro s' h
          simp only [doWhile, hb] at h
          exact hq s' h

theorem decode_eq_doWhile (bits : Nat) (lut : List Nat) (stream0 : Nat) (stdin : List Byte)
    (hb : bits = 8 ∨ bits = 16 ∨ bits = 24 ∨ bits = 32) :
    decode bits lut stream0 stdin
      = doWhile (decodeStep bits lut) loopFuel (decodeInit bits stream0 stdin) := by
  unfold decode decodeInit
  rw [if_pos hb]

theorem map_eq_range_of_get {σ : Type} (l : List σ) (f : σ → Nat) (n : Nat)
    (hl : l.length = n) (h : ∀ i (hi : i < l.length), f (l.get ⟨i, hi⟩) = i) :
    l.map f = List.range n := by
  apply List.ext_getElem
  · simp [hl]
  · intro i h1 h2
    have hi : i < l.length := by simpa using h1
    have := h i hi
    simp only [List.getElem_map, List.getElem_range]
    simpa using this

/-! ## Claim C17 -/

theorem lutVal_rotation_form :
    ∀ b : Byte, lutVal 0 b.val = (b.val &&& 252) ||| min ((b.val &&& 3) + 1) 3 ∧
      ∀ k : Fin 4, lutVal k.val b.val = rotl8 (lutVal 0 b.val) (2 * k.val) := by
  decide!

/-- C17: `LUT[0][b]` is `b` with bits 0-1 replaced by `min ((b&3)+1) 3` and bits
2-7 kept; `LUT[k][b]` is `LUT[0][b]` rotated left by `2*k` bits within 8 bits
(for `k = 1, 2, 3`, and trivially for `k = 0`); whatever the array held before,
the loop of lines 83-88 runs 256 iterations, with `i = 0, 1, …, 255`, ends with
`i = 0`, and leaves the 1024 entries of this table. -/
theorem LUT_rotation_form (init : List Nat) (hlen : init.length = 1024) :
    (∀ b : Byte, lutGet LUT 0 b.val = (b.val &&& 252) ||| min ((b.val &&& 3) + 1) 3) ∧
      (∀ b : Byte, ∀ k : Fin 4, lutGet LUT k.val b.val = rotl8 (lutGet LUT 0 b.val) (2 * k.val)) ∧
      buildLUTFrom init = .ok (LUT, 0) ∧ LUT.length = 1024 ∧
      (doWhileTrace lutStep loopFuel (init, 0)).length = 256 ∧
      (doWhileTrace lutStep loopFuel (init, 0)).map Prod.snd = List.range 256 := by
  have htr := doWhileTrace_inv lutStep (fun j s => s.2 = j ∧ s.1.length = 1024) 255
    (by
      rintro j ⟨t, i⟩ hj ⟨hi, hl⟩
      simp only at hi hl
      subst hi
      have : u8 (i + 1) = i + 1 := by unfold u8; omega
      exact ⟨(lutBody t i, i + 1), by simp [lutStep, this], rfl, by simp [length_lutBody, hl]⟩)
    (by
      rintro ⟨t, i⟩ s' ⟨hi, _⟩ h
      simp only at hi
      subst hi
      simp [lutStep, u8] at h)
    255 0 loopFuel (init, 0) (by omega) (by simp [loopFuel]) ⟨rfl, hlen⟩
  refine ⟨?_, ?_, ?_, ?_, htr.1, ?_⟩
  · intro b
    rw [LUT_eq, lutGet_lutTable 0 b.val (by omega) b.isLt]
    exact (lutVal_rotation_form b).1
  · intro b k
    rw [LUT_eq, lutGet_lutTable k.val b.val k.isLt b.isLt, lutGet_lutTable 0 b.val (by omega) b.isLt]
    exact (lutVal_rotation_form b).2 k
  · rw [LUT_eq]
    exact buildLUTFrom_eq init hlen
  · rw [LUT_eq]
    exact length_lutTable
  · apply map_eq_range_of_get _ _ _ htr.1
    intro i hi
    have := (htr.2 i hi).1
    simpa using this

/-- Witness of `LUT_rotation_form` on the zero-filled array. -/
theorem LUT_rotation_form_witness :
    (List.replicate 1024 0).length = 1024 ∧
      (∀ b : Byte, lutGet LUT 0 b.val = (b.val &&& 252) ||| min ((b.val &&& 3) + 1) 3) ∧
      (∀ b : Byte, ∀ k : Fin 4, lutGet LUT k.val b.val = rotl8 (lutGet LUT 0 b.val) (2 * k.val)) ∧
      buildLUTFrom (List.replicate 1024 0) = .ok (LUT, 0) ∧ LUT.length = 1024 ∧
      (doWhileTrace lutStep loopFuel (List.replicate 1024 0, 0)).length = 256 ∧
      (doWhileTrace lutStep loopFuel (List.replicate 1024 0, 0)).map Prod.snd = List.range 256 :=
  ⟨List.length_replicate _ _, LUT_rotation_form (List.replicate 1024 0) (List.length_replicate _ _)⟩

/-! ## Iterations of the decode and aggregation loops -/

theorem decode_trace (bits : Nat) (lut : List Nat) (stream0 : Nat) (stdin : List Byte)
    (hb : bits = 8 ∨ bits = 16 ∨ bits = 24 ∨ bits = 32)
    (hs : bits = 16 ∨ bits = 24 → stream0 < 2 ^ bits)
    (hlen : 2 ^ bits * sampleSize bits ≤ stdin.length) :
    (doWhileTrace (decodeStep bits lut) loopFuel (decodeInit bits stream0 stdin)).length
        = 2 ^ bits ∧
      ∀ i (h : i < (doWhileTrace (decodeStep bits lut) loopFuel
          (decodeInit bits stream0 stdin)).length),
        DecodeInv bits lut stream0 stdin i
          ((doWhileTrace (decodeStep bits lut) loopFuel (decodeInit bits stream0 stdin)).get
            ⟨i, h⟩) := by
  have hpos : 0 < 2 ^ bits := Nat.two_pow_pos bits
  have h32 : 2 ^ bits ≤ 2 ^ 32 := Nat.pow_le_pow_right (by norm_num) (by omega)
  have key := doWhileTrace_inv (decodeStep bits lut) (DecodeInv bits lut stream0 stdin)
    (2 ^ bits - 1)
    (by
      intro j d hj hP
      have hl : (j + 1) * sampleSize bits ≤ stdin.length :=
        le_trans (Nat.mul_le_mul_right _ (by omega)) hlen
      have hstep := decodeStep_ok bits lut stream0 stdin hb hs j d hl hP
      rw [loopCond_continue bits j hb (by omega)] at hstep
      exact ⟨_, hstep, rfl, rfl, rfl, by simp⟩)
    (by
      intro d s' hP h
      have e : 2 ^ bits - 1 + 1 = 2 ^ bits := by omega
      have hl : (2 ^ bits - 1 + 1) * sampleSize bits ≤ stdin.length := by rw [e]; exact hlen
      rw [decodeStep_ok bits lut stream0 stdin hb hs _ d hl hP, loopCond_exit bits hb] at h
      simp at h)
    (2 ^ bits - 1) 0 loopFuel (decodeInit bits stream0 stdin) (by omega)
    (by unfold loopFuel; omega)
    ⟨rfl, by simp [decodeInit], by simp [bumpedUpTo, decodeInit], by simp [decodeInit]⟩
  have e : 2 ^ bits - 1 + 1 = 2 ^ bits := by omega
  rw [e] at key
  refine ⟨key.1, ?_⟩
  intro i h
  have := key.2 i h
  simpa using this

theorem aggregate_trace (bits : Nat) (indegree : List Nat)
    (hb : bits = 8 ∨ bits = 16 ∨ bits = 24 ∨ bits = 32)
    (hlen : 2 ^ (bits - 2) ≤ indegree.length) :
    (doWhileTrace (aggStep bits indegree) loopFuel (0, [0, 0, 0, 0])).length = 2 ^ bits ∧
      (doWhileTrace (aggStep bits indegree) loopFuel (0, [0, 0, 0, 0])).map Prod.fst
        = List.range (2 ^ bits) ∧
      doWhile (aggStep bits indegree) loopFuel (0, [0, 0, 0, 0])
        = .ok (u32 (2 ^ bits), tallied indegree (2 ^ bits)) := by
  have hpos : 0 < 2 ^ bits := Nat.two_pow_pos bits
  have h32 : 2 ^ bits ≤ 2 ^ 32 := Nat.pow_le_pow_right (by norm_num) (by omega)
  have e : 2 ^ bits - 1 + 1 = 2 ^ bits := by omega
  have hstepP : ∀ j s, j < 2 ^ bits - 1 → s = (j, tallied indegree j) →
      ∃ s', aggStep bits indegree s = .ok (s', true) ∧ s' = (j + 1, tallied indegree (j + 1)) := by
    rintro j s hj rfl
    have hin : j >>> 2 < indegree.length :=
      lt_of_lt_of_le (shiftRight_two_lt j bits (by omega) (by omega)) hlen
    refine ⟨(j + 1, tallied indegree (j + 1)), ?_, rfl⟩
    simp only [aggStep, tally_tallied indegree j hin (by omega),
      loopCond_continue bits j hb (by omega)]
  have hlastP : ∀ s, s = (2 ^ bits - 1, tallied indegree (2 ^ bits - 1)) →
      aggStep bits indegree s = .ok ((u32 (2 ^ bits), tallied indegree (2 ^ bits)), false) := by
    rintro s rfl
    have hin : (2 ^ bits - 1) >>> 2 < indegree.length :=
      lt_of_lt_of_le (shiftRight_two_lt _ bits (by omega) (by omega)) hlen
    simp only [aggStep, tally_tallied indegree _ hin (by omega), loopCond_exit bits hb, e]
  have key := doWhileTrace_inv (aggStep bits indegree)
    (fun j s => s = (j, tallied indegree j)) (2 ^ bits - 1) hstepP
    (by
      intro s s' hP h
      rw [hlastP s hP] at h
      simp at h)
    (2 ^ bits - 1) 0 loopFuel (0, [0, 0, 0, 0]) (by omega) (by unfold loopFuel; omega)
    (by simp [tallied, bucketCount])
  rw [e] at key
  refine ⟨key.1, ?_, ?_⟩
  · apply map_eq_range_of_get _ _ _ key.1
    intro i hi
    have := key.2 i hi
    simp only [Nat.zero_add] at this
    rw [this]
  · exact doWhile_inv (aggStep bits indegree) (fun j s => s = (j, tallied indegree j))
      (fun r => r = .ok (u32 (2 ^ bits), tallied indegree (2 ^ bits))) (2 ^ bits - 1) hstepP
      (fun s hP => Or.inr ⟨_, hlastP s hP, rfl⟩)
      (2 ^ bits - 1) 0 loopFuel (0, [0, 0, 0, 0]) (by omega) (by unfold loopFuel; omega)
      (by simp [tallied, bucketCount])

/-! ## Runs that start with non-zero high bytes in `stream` -/

/-- For `n = 16` and `n = 24`, when `stream` holds `2^n` or more before a read,
the iteration fails: on the read assertion when less than one sample is left,
otherwise on the access to `indegree`, whose index is `2^(n-2)` or more. -/
theorem decodeStep_high_bytes (bits : Nat) (lut : List Nat) (d : Dec)
    (hb : bits = 16 ∨ bits = 24) (h0 : 2 ^ bits ≤ d.stream) (h1 : d.stream < 2 ^ 32)
    (hind : d.indegree.length = 2 ^ (bits - 2)) :
    (sampleSize bits ≤ d.stdin.length → decodeStep bits lut d = .error .outOfBounds) ∧
      (d.stdin.length < sampleSize bits → decodeStep bits lut d = .error .shortRead) := by
  constructor
  · intro hlen
    have hv := leValue_take_lt d.stdin (sampleSize bits)
    have hp : 256 ^ sampleSize bits = 2 ^ bits :=
      pow_sampleSize bits (by rcases hb with rfl | rfl <;> simp)
    have hpos : 0 < 2 ^ bits := Nat.two_pow_pos bits
    have hd : 1 ≤ d.stream / 2 ^ bits := (Nat.one_le_div_iff hpos).mpr h0
    have hm : d.stream / 2 ^ bits * 2 ^ bits ≤ d.stream := Nat.div_mul_le_self _ _
    have hge : 2 ^ bits ≤ d.stream / 2 ^ bits * 2 ^ bits := Nat.le_mul_of_pos_left _ hd
    rw [hp] at hv
    have hr : readSample bits d.stream d.stdin
        = (1, d.stream / 2 ^ bits * 2 ^ bits + leValue (d.stdin.take (sampleSize bits)),
            d.stdin.drop (sampleSize bits)) := by
      have h32 : 2 ^ bits ≤ 2 ^ 32 := Nat.pow_le_pow_right (by norm_num) (by omega)
      have hlt : d.stream / 2 ^ bits * 2 ^ bits + leValue (d.stdin.take (sampleSize bits))
          < 2 ^ 32 := by
        have hmod : d.stream % 2 ^ bits < 2 ^ bits := Nat.mod_lt _ hpos
        have hdm := Nat.div_add_mod d.stream (2 ^ bits)
        have hcomm : 2 ^ bits * (d.stream / 2 ^ bits) = d.stream / 2 ^ bits * 2 ^ bits :=
          Nat.mul_comm _ _
        by_contra hcon
        have h232 : (2 : Nat) ^ 32 = 2 ^ bits * 2 ^ (32 - bits) := by
          rw [← Nat.pow_add]; congr 1; omega
        -- the multiple of 2^bits below 2^32 plus a value below 2^bits stays below 2^32
        have hq : d.stream / 2 ^ bits < 2 ^ (32 - bits) := by
          apply Nat.div_lt_of_lt_mul
          rw [← h232]; exact h1
        have : d.stream / 2 ^ bits * 2 ^ bits + 2 ^ bits ≤ 2 ^ 32 := by
          have : (d.stream / 2 ^ bits + 1) * 2 ^ bits ≤ 2 ^ (32 - bits) * 2 ^ bits :=
            Nat.mul_le_mul_right _ hq
          rw [h232, Nat.mul_comm (2 ^ bits)]
          calc d.stream / 2 ^ bits * 2 ^ bits + 2 ^ bits
              = (d.stream / 2 ^ bits + 1) * 2 ^ bits := by ring
            _ ≤ 2 ^ (32 - bits) * 2 ^ bits := this
        omega
      rcases hb with rfl | rfl
      · have hl2 : 2 ≤ d.stdin.length := hlen
        simp only [readSample, fread, if_pos hl2, u32]
        rw [Nat.mod_eq_of_lt (by simpa [sampleSize] using hlt)]
        rfl
      · have hl3 : 3 ≤ d.stdin.length := hlen
        simp only [readSample, fread, if_pos hl3, u32]
        rw [Nat.mod_eq_of_lt (by simpa [sampleSize] using hlt)]
        rfl
    apply decodeStep_outOfBounds bits lut d _ _ hr
    rw [hind, Nat.shiftRight_eq_div_pow, Nat.le_div_iff_mul_le (by norm_num)]
    have h22 : 2 ^ (bits - 2) * 2 ^ 2 = 2 ^ bits := by
      rw [← Nat.pow_add]; congr 1; rcases hb with rfl | rfl <;> rfl
    omega
  · intro hlen
    have := readSample_short bits d.stream d.stdin
      (by rcases hb with rfl | rfl <;> simp) hlen
    unfold decodeStep
    simp [this]

/-- A decode pass for `n = 16` or `n = 24` entered with `2^n ≤ stream < 2^32`
stops in its first iteration. -/
theorem decode_high_bytes (bits : Nat) (lut : List Nat) (stream0 : Nat) (stdin : List Byte)
    (hb : bits = 16 ∨ bits = 24) (h0 : 2 ^ bits ≤ stream0) (h1 : stream0 < 2 ^ 32) :
    (∃ e, decode bits lut stream0 stdin = .error e) ∧
      doWhileTrace (decodeStep bits lut) loopFuel (decodeInit bits stream0 stdin)
        = [decodeInit bits stream0 stdin] ∧
      (sampleSize bits ≤ stdin.length → decode bits lut stream0 stdin = .error .outOfBounds) := by
  have hb4 : bits = 8 ∨ bits = 16 ∨ bits = 24 ∨ bits = 32 := by
    rcases hb with rfl | rfl <;> simp
  have hstep := decodeStep_high_bytes bits lut (decodeInit bits stream0 stdin) hb h0 h1
    (by simp [decodeInit])
  have hfuel : loopFuel = (2 ^ 32 - 1) + 1 := by simp [loopFuel]
  have herr : ∃ e, decodeStep bits lut (decodeInit bits stream0 stdin) = .error e := by
    by_cases hl : sampleSize bits ≤ stdin.length
    · exact ⟨_, hstep.1 hl⟩
    · exact ⟨_, hstep.2 (by simpa [decodeInit] using hl)⟩
  obtain ⟨e, he⟩ := herr
  refine ⟨⟨e, ?_⟩, ?_, ?_⟩
  · rw [decode_eq_doWhile bits lut stream0 stdin hb4, hfuel, doWhile, he]
  · rw [hfuel, doWhileTrace, he]
  · intro hl
    rw [decode_eq_doWhile bits lut stream0 stdin hb4, hfuel, doWhile, hstep.1 hl]

/-- A run that reaches the end of the counting phase had the unwritten bytes of
`stream` zero and enough input, and its counts are the closed form. -/
theorem countPhase_ok_closed (bits stream0 : Nat) (stdin : List Byte) (counts : List Nat)
    (hb : bits = 8 ∨ bits = 16 ∨ bits = 24 ∨ bits = 32) (h32 : stream0 < 2 ^ 32)
    (hok : countPhase bits stream0 stdin = .ok counts) :
    (bits = 16 ∨ bits = 24 → stream0 < 2 ^ bits) ∧
      2 ^ bits * sampleSize bits ≤ stdin.length ∧
      counts = tallied (bumpedUpTo bits lutTable stdin (2 ^ bits)) (2 ^ bits) := by
  have hs : bits = 16 ∨ bits = 24 → stream0 < 2 ^ bits := by
    intro h
    by_contra hcon
    obtain ⟨e, he⟩ := (decode_high_bytes bits lutTable stream0 stdin h (by omega) h32).1
    rw [countPhase_decode_error bits stream0 stdin e he] at hok
    cases hok
  have hlen : 2 ^ bits * sampleSize bits ≤ stdin.length := by
    by_contra hcon
    rw [countPhase_short bits stream0 stdin hb hs (by omega)] at hok
    cases hok
  refine ⟨hs, hlen, ?_⟩
  rw [countPhase_ok bits stream0 stdin hb hs hlen] at hok
  cases hok
  rfl

/-! ## Claim C12: scenario A -/

theorem leValue_replicate_zero (n : Nat) : leValue (List.replicate n (0 : Byte)) = 0 := by
  induction n with
  | zero => rfl
  | succ n ih => simp [List.replicate_succ, leValue, ih]

theorem sampleAt_scenarioA (j : Nat) : sampleAt 8 scenarioA j = 0 := by
  unfold sampleAt scenarioA
  rw [List.drop_replicate, List.take_replicate, leValue_replicate_zero]

set_option maxRecDepth 100000 in
theorem bumpedUpTo_scenarioA (j : Nat) :
    bumpedUpTo 8 LUT scenarioA j = min j 3 :: List.replicate 63 0 := by
  induction j with
  | zero => rfl
  | succ j ih =>
    rw [bumpedUpTo_succ, ih, sampleAt_scenarioA, LUT_eq]
    have h4 : min j 3 = 0 ∨ min j 3 = 1 ∨ min j 3 = 2 ∨ min j 3 = 3 := by omega
    have hj : min (j + 1) 3 = min (min j 3 + 1) 3 := by omega
    rw [hj]
    rcases h4 with h | h | h | h <;> rw [h] <;> decide!

set_option maxRecDepth 100000 in
theorem scenarioA_enough : 2 ^ 8 * sampleSize 8 ≤ scenarioA.length := by
  have : scenarioA.length = 256 := List.length_replicate _ _
  rw [this]
  decide

set_option maxRecDepth 100000 in
theorem countPhase_scenarioA (stream0 : Nat) :
    countPhase 8 stream0 scenarioA = .ok [255, 0, 0, 1] := by
  rw [countPhase_ok 8 stream0 scenarioA (Or.inl rfl) (fun h => by omega) scenarioA_enough,
    ← LUT_eq, bumpedUpTo_scenarioA]
  decide!

/-- C12: for `n = 8` and the input of 256 bytes equal to 0, the decode loop runs
256 iterations; after `i` samples the counter of node 0 is `min i 3` (3 from the
third sample on) and every other node counter is 0; the run ends with
`counts = [255, 0, 0, 1]`. This holds whatever `stream` held before. -/
theorem scenarioA_counts (stream0 : Nat) :
    countPhase 8 stream0 scenarioA = .ok [255, 0, 0, 1] ∧
      (doWhileTrace (decodeStep 8 LUT) loopFuel (decodeInit 8 stream0 scenarioA)).length = 256 ∧
      (∀ i (h : i < (doWhileTrace (decodeStep 8 LUT) loopFuel
          (decodeInit 8 stream0 scenarioA)).length),
        ∀ v : Fin 256,
          field ((((doWhileTrace (decodeStep 8 LUT) loopFuel
            (decodeInit 8 stream0 scenarioA)).get ⟨i, h⟩).indegree).getD (v.val >>> 2) 0) v.val
            = if v.val = 0 then min i 3 else 0) ∧
      ∃ d, decode 8 LUT stream0 scenarioA = .ok d ∧
        ∀ v : Fin 256, field (d.indegree.getD (v.val >>> 2) 0) v.val
          = if v.val = 0 then 3 else 0 := by
  have hb : (8 : Nat) = 8 ∨ (8 : Nat) = 16 ∨ (8 : Nat) = 24 ∨ (8 : Nat) = 32 := Or.inl rfl
  have hs : (8 : Nat) = 16 ∨ (8 : Nat) = 24 → stream0 < 2 ^ 8 := by
    intro h; omega
  have hlen : 2 ^ 8 * sampleSize 8 ≤ scenarioA.length := scenarioA_enough
  have hfields : ∀ m : Fin 4, ∀ v : Fin 256,
      field ((m.val :: List.replicate 63 0).getD (v.val >>> 2) 0) v.val
        = if v.val = 0 then m.val else 0 := by decide!
  have hshape : ∀ j, ∀ v : Fin 256,
      field ((bumpedUpTo 8 LUT scenarioA j).getD (v.val >>> 2) 0) v.val
        = if v.val = 0 then min j 3 else 0 := by
    intro j v
    rw [bumpedUpTo_scenarioA]
    exact hfields ⟨min j 3, by omega⟩ v
  have htr := decode_trace 8 LUT stream0 scenarioA hb hs hlen
  refine ⟨?_, htr.1, ?_, ?_⟩
  · exact countPhase_scenarioA stream0
  · intro i h v
    rw [(htr.2 i h).2.2.1]
    exact hshape i v
  · refine ⟨_, decode_ok 8 LUT stream0 scenarioA hb hs hlen, ?_⟩
    intro v
    have := hshape (2 ^ 8) v
    simpa [decodeEnd] using this

/-! ## Claim C13: scenario B -/

set_option maxRecDepth 1000000 in
theorem tallied_scenarioB :
    tallied (bumpedUpTo 8 lutTable scenarioB (2 ^ 8)) (2 ^ 8) = [192, 0, 0, 64] := by
  decide!

theorem countPhase_scenarioB (stream0 : Nat) :
    countPhase 8 stream0 scenarioB = .ok [192, 0, 0, 64] := by
  have hlen : 2 ^ 8 * sampleSize 8 ≤ scenarioB.length := by
    have : scenarioB.length = 256 := by simp [scenarioB]
    rw [this]
    decide
  rw [countPhase_ok 8 stream0 scenarioB (Or.inl rfl) (fun h => by omega) hlen, tallied_scenarioB]

set_option maxRecDepth 1000000 in
/-- C13 as amended: for `n = 8` and the 256-byte input formed by the byte values
`4*k`, `k = 0 .. 63`, repeated four times, every node `4*k` is targeted four
times and no other node is targeted; the run ends with
`counts = [192, 0, 0, 64]`, which are the bucket totals of the specification for
this sample sequence. -/
theorem scenarioB_counts (stream0 : Nat) :
    scenarioB.length = 256 ∧
      (∀ v : Fin 256, (samples8 scenarioB).count v.val = if v.val % 4 = 0 then 4 else 0) ∧
      countPhase 8 stream0 scenarioB = .ok [192, 0, 0, 64] ∧
      specCounts 8 (samples8 scenarioB) = [192, 0, 0, 64] := by
  refine ⟨by simp [scenarioB], by decide!, countPhase_scenarioB stream0, by decide!⟩

/-- C13 as stated fails on the code: on the input of scenario B the run ends
with `counts = [192, 0, 0, 64]`, not `[0, 256, 0, 0]`. -/
theorem scenarioB_not_all_once :
    countPhase 8 0 scenarioB = .ok [192, 0, 0, 64] ∧
      countPhase 8 0 scenarioB ≠ .ok [0, 256, 0, 0] := by
  rw [countPhase_scenarioB 0]
  exact ⟨rfl, by decide⟩

/-! ## Claim C14: the expected values -/

theorem u64_one_shiftLeft (bits : Nat) (hb : bits = 8 ∨ bits = 16 ∨ bits = 24 ∨ bits = 32) :
    u64 (1 <<< bits) = 2 ^ bits := by
  have h32 : 2 ^ bits ≤ 2 ^ 32 := Nat.pow_le_pow_right (by norm_num) (by omega)
  rw [Nat.one_shiftLeft]
  exact Nat.mod_eq_of_lt (by omega)

/-- C14: over exact real arithmetic, with `N = 2^bits` for a supported `bits`,
`expecteds` is `[N/e, N/e, (N/e)/2, N - E0 - E1 - E2]`; the four values sum to
`N`, each is strictly positive, and the last is `N * (1 - 5/(2e))`. -/
theorem expecteds_real (bits : Nat) (hb : bits = 8 ∨ bits = 16 ∨ bits = 24 ∨ bits = 32) :
    (expecteds realMath bits).length = 4 ∧
      (expecteds realMath bits).getD 0 0 = (2 : ℝ) ^ bits / Real.exp 1 ∧
      (expecteds realMath bits).getD 1 0 = (expecteds realMath bits).getD 0 0 ∧
      (expecteds realMath bits).getD 2 0 = (expecteds realMath bits).getD 0 0 / 2 ∧
      (expecteds realMath bits).getD 3 0
        = (2 : ℝ) ^ bits - (expecteds realMath bits).getD 0 0
          - (expecteds realMath bits).getD 1 0 - (expecteds realMath bits).getD 2 0 ∧
      (expecteds realMath bits).getD 0 0 + (expecteds realMath bits).getD 1 0
        + (expecteds realMath bits).getD 2 0 + (expecteds realMath bits).getD 3 0
        = (2 : ℝ) ^ bits ∧
      0 < (expecteds realMath bits).getD 0 0 ∧ 0 < (expecteds realMath bits).getD 1 0 ∧
      0 < (expecteds realMath bits).getD 2 0 ∧ 0 < (expecteds realMath bits).getD 3 0 ∧
      (expecteds realMath bits).getD 3 0 = (2 : ℝ) ^ bits * (1 - 5 / (2 * Real.exp 1)) := by
  have hN : ((u64 (1 <<< bits) : Nat) : ℝ) = (2 : ℝ) ^ bits := by
    rw [u64_one_shiftLeft bits hb]
    push_cast
    rfl
  have hdef : expecteds realMath bits
      = [(2 : ℝ) ^ bits / Real.exp 1, (2 : ℝ) ^ bits / Real.exp 1,
          (2 : ℝ) ^ bits / Real.exp 1 / 2,
          (2 : ℝ) ^ bits - (2 : ℝ) ^ bits / Real.exp 1 - (2 : ℝ) ^ bits / Real.exp 1
            - (2 : ℝ) ^ bits / Real.exp 1 / 2] := by
    rw [← hN]
    rfl
  have he : (2.5 : ℝ) < Real.exp 1 := lt_trans (by norm_num) Real.exp_one_gt_d9
  have hpos : (0 : ℝ) < Real.exp 1 := Real.exp_pos 1
  have hNpos : (0 : ℝ) < (2 : ℝ) ^ bits := pow_pos (by norm_num) bits
  have h0 : 0 < (2 : ℝ) ^ bits / Real.exp 1 := div_pos hNpos hpos
  have h3 : (2 : ℝ) ^ bits - (2 : ℝ) ^ bits / Real.exp 1 - (2 : ℝ) ^ bits / Real.exp 1
      - (2 : ℝ) ^ bits / Real.exp 1 / 2 = (2 : ℝ) ^ bits * (1 - 5 / (2 * Real.exp 1)) := by
    field_simp
    ring
  have h3pos : 0 < (2 : ℝ) ^ bits * (1 - 5 / (2 * Real.exp 1)) := by
    apply mul_pos hNpos
    have : 5 / (2 * Real.exp 1) < 1 := by
      rw [div_lt_one (by positivity)]
      linarith
    linarith
  rw [hdef]
  refine ⟨rfl, rfl, rfl, rfl, rfl, ?_, h0, h0, ?_, ?_, h3⟩
  · show (2 : ℝ) ^ bits / Real.exp 1 + (2 : ℝ) ^ bits / Real.exp 1
        + (2 : ℝ) ^ bits / Real.exp 1 / 2
        + ((2 : ℝ) ^ bits - (2 : ℝ) ^ bits / Real.exp 1 - (2 : ℝ) ^ bits / Real.exp 1
            - (2 : ℝ) ^ bits / Real.exp 1 / 2) = (2 : ℝ) ^ bits
    ring
  · show 0 < (2 : ℝ) ^ bits / Real.exp 1 / 2
    positivity
  · show 0 < (2 : ℝ) ^ bits - (2 : ℝ) ^ bits / Real.exp 1 - (2 : ℝ) ^ bits / Real.exp 1
        - (2 : ℝ) ^ bits / Real.exp 1 / 2
    rw [h3]
    exact h3pos

/-- Witness of `expecteds_real` at `n = 8`. -/
theorem expecteds_real_witness :
    (8 = 8 ∨ 8 = 16 ∨ 8 = 24 ∨ 8 = 32) ∧
      (expecteds realMath 8).getD 0 0 = (2 : ℝ) ^ 8 / Real.exp 1 ∧
      (expecteds realMath 8).getD 0 0 + (expecteds realMath 8).getD 1 0
        + (expecteds realMath 8).getD 2 0 + (expecteds realMath 8).getD 3 0 = (2 : ℝ) ^ 8 ∧
      (expecteds realMath 8).getD 3 0 = (2 : ℝ) ^ 8 * (1 - 5 / (2 * Real.exp 1)) :=
  ⟨by decide, (expecteds_real 8 (by decide)).2.1, (expecteds_real 8 (by decide)).2.2.2.2.2.1,
    (expecteds_real 8 (by decide)).2.2.2.2.2.2.2.2.2.2⟩

/-! ## Claim C16: mode resolution -/

/-- With a bound that exceeds the length of the first string, `strncmp` returns 0
exactly when the two strings are equal. -/
theorem strncmpZero_iff (a b : List Char) (n : Nat) (h : a.length < n) :
    strncmpZero a b n = true ↔ a = b := by
  induction a generalizing b n with
  | nil =>
    obtain ⟨m, rfl⟩ : ∃ m, n = m + 1 := ⟨n - 1, by simp at h; omega⟩
    cases b with
    | nil => simp [strncmpZero]
    | cons c cs => simp [strncmpZero]
  | cons x xs ih =>
    obtain ⟨m, rfl⟩ : ∃ m, n = m + 1 := ⟨n - 1, by simp at h; omega⟩
    cases b with
    | nil => simp [strncmpZero]
    | cons c cs =>
      have hm : xs.length < m := by simpa using h
      by_cases hxc : x = c
      · subst hxc
        simp [strncmpZero, ih cs m hm]
      · simp [strncmpZero, hxc]

theorem strncmpZero_name (name s : String) (n : Nat) (h : name.data.length < n) :
    strncmpZero name.data s.data n = true ↔ s = name := by
  rw [strncmpZero_iff _ _ _ h]
  constructor
  · intro e
    exact String.ext e.symm
  · intro e
    rw [e]

theorem resolve_one (libc : Libc) (a0 : String) :
    resolve libc [a0] =
      if libc.basename a0 = "artemisia8" then 8
      else if libc.basename a0 = "artemisia16" then 16
      else if libc.basename a0 = "artemisia24" then 24
      else if libc.basename a0 = "artemisia32" then 32
      else 0 := by
  have h8 := strncmpZero_name "artemisia8" (libc.basename a0) 11 (by decide)
  have h16 := strncmpZero_name "artemisia16" (libc.basename a0) 12 (by decide)
  have h24 := strncmpZero_name "artemisia24" (libc.basename a0) 12 (by decide)
  have h32 := strncmpZero_name "artemisia32" (libc.basename a0) 12 (by decide)
  simp only [resolve, h8, h16, h24, h32]

theorem resolve_two (libc : Libc) (a0 a1 : String) :
    resolve libc [a0, a1] =
      if libc.basename a0 = "artemisia" then
        if libc.atoi a1 = 8 then 8
        else if libc.atoi a1 = 16 then 16
        else if libc.atoi a1 = 24 then 24
        else if libc.atoi a1 = 32 then 32
        else 0
      else 0 := by
  have h := strncmpZero_name "artemisia" (libc.basename a0) 10 (by decide)
  simp only [resolve, h]
  by_cases hn : libc.basename a0 = "artemisia"
  · simp only [if_pos hn]
    split
    · rename_i hv; simp [hv]
    · rename_i hv; simp [hv]
    · rename_i hv; simp [hv]
    · rename_i hv; simp [hv]
    · rename_i e8 e16 e24 e32
      have e8 : ¬ libc.atoi a1 = 8 := e8
      have e16 : ¬ libc.atoi a1 = 16 := e16
      have e24 : ¬ libc.atoi a1 = 24 := e24
      have e32 : ¬ libc.atoi a1 = 32 := e32
      simp [e8, e16, e24, e32]
  · simp only [if_neg hn]

theorem resolve_long (libc : Libc) (argv : List String) (h : 3 ≤ argv.length) :
    resolve libc argv = 0 := by
  match argv, h with
  | _ :: _ :: _ :: _, _ => rfl

theorem resolve_cases (libc : Libc) (argv : List String) (n : Nat) (name : String)
    (hn : n = 8 ∨ n = 16 ∨ n = 24 ∨ n = 32)
    (hname : (n = 8 ∧ name = "artemisia8") ∨ (n = 16 ∧ name = "artemisia16") ∨
      (n = 24 ∧ name = "artemisia24") ∨ (n = 32 ∧ name = "artemisia32")) :
    resolve libc argv = n ↔
      (∃ a0, argv = [a0] ∧ libc.basename a0 = name) ∨
      (∃ a0 a1, argv = [a0, a1] ∧ libc.basename a0 = "artemisia" ∧ libc.atoi a1 = (n : Int)) := by
  have d1 : ("artemisia8" : String) ≠ "artemisia16" := by decide
  have d2 : ("artemisia8" : String) ≠ "artemisia24" := by decide
  have d3 : ("artemisia8" : String) ≠ "artemisia32" := by decide
  have d4 : ("artemisia16" : String) ≠ "artemisia24" := by decide
  have d5 : ("artemisia16" : String) ≠ "artemisia32" := by decide
  have d6 : ("artemisia24" : String) ≠ "artemisia32" := by decide
  match argv with
  | [] =>
    have : resolve libc [] = 0 := rfl
    rw [this]
    constructor
    · intro h; omega
    · rintro (⟨a0, h, _⟩ | ⟨a0, a1, h, _⟩) <;> simp at h
  | [a0] =>
    rw [resolve_one]
    constructor
    · intro h
      left
      refine ⟨a0, rfl, ?_⟩
      rcases hname with ⟨rfl, rfl⟩ | ⟨rfl, rfl⟩ | ⟨rfl, rfl⟩ | ⟨rfl, rfl⟩ <;>
        (split_ifs at h <;> first | assumption | omega)
    · rintro (⟨b0, h, hbase⟩ | ⟨b0, b1, h, _⟩)
      · have hb : b0 = a0 := by simpa using h.symm
        subst hb
        rcases hname with ⟨rfl, rfl⟩ | ⟨rfl, rfl⟩ | ⟨rfl, rfl⟩ | ⟨rfl, rfl⟩ <;>
          simp [hbase]
      · simp at h
  | [a0, a1] =>
    rw [resolve_two]
    constructor
    · intro h
      right
      refine ⟨a0, a1, rfl, ?_⟩
      rcases hn with rfl | rfl | rfl | rfl <;>
        (split_ifs at h <;> first | omega | (constructor <;> assumption))
    · rintro (⟨b0, h, _⟩ | ⟨b0, b1, h, hbase, hat⟩)
      · simp at h
      · have hb : b0 = a0 ∧ b1 = a1 := by simpa using h.symm
        obtain ⟨rfl, rfl⟩ := hb
        rcases hn with rfl | rfl | rfl | rfl <;> simp [hbase, hat]
  | a0 :: a1 :: a2 :: rest =>
    have : resolve libc (a0 :: a1 :: a2 :: rest) = 0 := rfl
    rw [this]
    constructor
    · intro h; omega
    · rintro (⟨b0, h, _⟩ | ⟨b0, b1, h, _⟩) <;> simp at h

/-- C16: `bits` is resolved to `n` in {8, 16, 24, 32} exactly when `argv` has one
element whose basename is `artemisia<n>`, or two elements, the basename of the
first being `artemisia` and `atoi` of the second being `n`; in every other case
(for instance an argument that `atoi` reads as 12, a fixed name followed by an
argument, the generic name alone, three or more elements) `bits` stays 0, and
then `main` calls `usage()` and returns 0 with nothing read and nothing written
to standard output. -/
theorem resolve_iff (libc : Libc) (argv : List String) :
    (resolve libc argv = 8 ↔
      (∃ a0, argv = [a0] ∧ libc.basename a0 = "artemisia8") ∨
      (∃ a0 a1, argv = [a0, a1] ∧ libc.basename a0 = "artemisia" ∧ libc.atoi a1 = 8)) ∧
    (resolve libc argv = 16 ↔
      (∃ a0, argv = [a0] ∧ libc.basename a0 = "artemisia16") ∨
      (∃ a0 a1, argv = [a0, a1] ∧ libc.basename a0 = "artemisia" ∧ libc.atoi a1 = 16)) ∧
    (resolve libc argv = 24 ↔
      (∃ a0, argv = [a0] ∧ libc.basename a0 = "artemisia24") ∨
      (∃ a0 a1, argv = [a0, a1] ∧ libc.basename a0 = "artemisia" ∧ libc.atoi a1 = 24)) ∧
    (resolve libc argv = 32 ↔
      (∃ a0, argv = [a0] ∧ libc.basename a0 = "artemisia32") ∨
      (∃ a0 a1, argv = [a0, a1] ∧ libc.basename a0 = "artemisia" ∧ libc.atoi a1 = 32)) ∧
    (resolve libc argv = 0 ∨ resolve libc argv = 8 ∨ resolve libc argv = 16 ∨
      resolve libc argv = 24 ∨ resolve libc argv = 32) ∧
    (∀ a0 a1, libc.atoi a1 = 12 → resolve libc [a0, a1] = 0) ∧
    (∀ a0 a1, libc.basename a0 = "artemisia8" → resolve libc [a0, a1] = 0) ∧
    (∀ a0, libc.basename a0 = "artemisia" → resolve libc [a0] = 0) ∧
    (3 ≤ argv.length → resolve libc argv = 0) ∧
    (resolve libc argv = 0 →
      ∀ (stream0 : Nat) (stdin : List Byte),
        main realMath libc argv stream0 stdin = { usage := true, stdout := [], exit := .ok 0 }) ∧
    (resolve libc argv ≠ 0 →
      ∀ (stream0 : Nat) (stdin : List Byte),
        (main realMath libc argv stream0 stdin).usage = false ∧
        (main realMath libc argv stream0 stdin).stdout
          = (mainResolved realMath (resolve libc argv) stream0 stdin).1) := by
  refine ⟨resolve_cases libc argv 8 _ (by simp) (by simp),
    resolve_cases libc argv 16 _ (by simp) (by simp),
    resolve_cases libc argv 24 _ (by simp) (by simp),
    resolve_cases libc argv 32 _ (by simp) (by simp), ?_, ?_, ?_, ?_,
    resolve_long libc argv, ?_, ?_⟩
  · match argv with
    | [] => exact Or.inl rfl
    | [a0] =>
      rw [resolve_one]
      split_ifs <;> simp
    | [a0, a1] =>
      rw [resolve_two]
      split_ifs <;> simp
    | _ :: _ :: _ :: _ => exact Or.inl rfl
  · intro a0 a1 h
    rw [resolve_two, h]
    simp
  · intro a0 a1 h
    rw [resolve_two, h]
    simp
  · intro a0 h
    rw [resolve_one, h]
    simp
  · intro h stream0 stdin
    unfold main
    rw [if_pos h]
  · intro h stream0 stdin
    unfold main
    rw [if_neg h]
    constructor <;> split <;> simp_all

/-! ## What one iteration of the decode loop does -/

theorem bump_eq_ok (lut indegree : List Nat) (stream : Nat) (a : List Nat)
    (h : bump lut indegree stream = .ok a) :
    stream >>> 2 < indegree.length ∧ a = bumped lut indegree stream := by
  by_cases hin : stream >>> 2 < indegree.length
  · rw [bump_ok lut indegree stream hin] at h
    cases h
    exact ⟨hin, rfl⟩
  · rw [bump_outOfBounds lut indegree stream (by omega)] at h
    cases h

/-- A successful iteration read a sample `t.stream`, stored the table entry at
index `t.stream >> 2` and advanced `state` by the loop condition. -/
theorem decodeStep_eq_ok (bits : Nat) (lut : List Nat) (d t : Dec) (c : Bool)
    (h : decodeStep bits lut d = .ok (t, c)) :
    readSample bits d.stream d.stdin = (1, t.stream, t.stdin) ∧
      t.stream >>> 2 < d.indegree.length ∧
      t.indegree = bumped lut d.indegree t.stream ∧
      t.state = (loopCond bits d.state).1 ∧ c = (loopCond bits d.state).2 := by
  unfold decodeStep at h
  simp only at h
  split at h
  · rename_i h1
    split at h
    · cases h
    · rename_i a ha
      obtain ⟨hin, rfl⟩ := bump_eq_ok _ _ _ _ ha
      cases h
      exact ⟨Prod.ext h1.symm.symm rfl, hin, rfl, rfl, rfl⟩
  · cases h

theorem loopCond_true (bits j : Nat) (hb : bits = 8 ∨ bits = 16 ∨ bits = 24 ∨ bits = 32)
    (hj : j < 2 ^ bits) (h : (loopCond bits j).2 = true) :
    (loopCond bits j).1 = j + 1 ∧ j + 1 < 2 ^ bits := by
  rcases hb with rfl | rfl | rfl | rfl
  · simp only [loopCond, decide_eq_true_eq] at h
    simp only [loopCond, u32]
    omega
  · simp only [loopCond, decide_eq_true_eq] at h
    simp only [loopCond, u32]
    omega
  · simp only [loopCond, decide_eq_true_eq] at h
    simp only [loopCond, u32]
    omega
  · simp only [loopCond, u32, bne_iff_ne, ne_eq] at h
    simp only [loopCond, u32]
    omega

/-! ## Bounds on bytes and table entries -/

theorem lutVal_lt (s b : Nat) : lutVal s b < 256 := by
  unfold lutVal
  split <;> simp only [lut0, u8] <;> omega

theorem lutTable_lt : ∀ x ∈ lutTable, x < 256 := by
  intro x hx
  simp only [lutTable, List.mem_map] at hx
  obtain ⟨k, _, rfl⟩ := hx
  exact lutVal_lt _ _

theorem lutGet_lutTable_lt (s b : Nat) : lutGet lutTable s b < 256 := by
  unfold lutGet
  rw [List.getD_eq_getElem?_getD]
  cases h : lutTable[256 * s + b]? with
  | none => simp
  | some x =>
    simp only [Option.getD_some]
    exact lutTable_lt x (List.getElem?_mem h)

theorem bumped_lt (indegree : List Nat) (stream : Nat) (h : ∀ x ∈ indegree, x < 256) :
    ∀ x ∈ bumped lutTable indegree stream, x < 256 := by
  intro x hx
  unfold bumped at hx
  rcases List.mem_or_eq_of_mem_set hx with h1 | h1
  · exact h x h1
  · rw [h1]
    exact lutGet_lutTable_lt _ _

/-! ## Claim C15: counters stay in {0,1,2,3}, bytes and table entries below 256 -/

theorem decode_bytes_lt (bits stream0 : Nat) (stdin : List Byte) :
    (∀ i (h : i < (doWhileTrace (decodeStep bits lutTable) loopFuel
        (decodeInit bits stream0 stdin)).length),
      ∀ x ∈ ((doWhileTrace (decodeStep bits lutTable) loopFuel
        (decodeInit bits stream0 stdin)).get ⟨i, h⟩).indegree, x < 256) ∧
      ∀ d, decode bits lutTable stream0 stdin = .ok d → ∀ x ∈ d.indegree, x < 256 := by
  have hinit : ∀ x ∈ (decodeInit bits stream0 stdin).indegree, x < 256 := by
    intro x hx
    have := List.eq_of_mem_replicate hx
    omega
  have key := doWhileTrace_any (decodeStep bits lutTable)
    (fun _ d => ∀ x ∈ d.indegree, x < 256) (fun d => ∀ x ∈ d.indegree, x < 256)
    (by
      intro j s t hP h
      obtain ⟨_, _, ht, _, _⟩ := decodeStep_eq_ok bits lutTable s t true h
      rw [ht]
      exact bumped_lt s.indegree t.stream hP)
    (by
      intro j s t hP h
      obtain ⟨_, _, ht, _, _⟩ := decodeStep_eq_ok bits lutTable s t false h
      rw [ht]
      exact bumped_lt s.indegree t.stream hP)
    loopFuel 0 (decodeInit bits stream0 stdin) hinit
  refine ⟨key.1, ?_⟩
  intro d hd
  by_cases hb : bits = 8 ∨ bits = 16 ∨ bits = 24 ∨ bits = 32
  · rw [decode_eq_doWhile bits lutTable stream0 stdin hb] at hd
    exact key.2 d hd
  · unfold decode at hd
    rw [if_neg hb] at hd
    cases hd
    exact hinit

/-- C15: every entry of `LUT` is below 256; the 2-bit counter read from any byte
for any node is below 4; before every iteration of the decode loop, and in the
state in which the loop ends, every byte of `indegree` is below 256, hence every
node counter read from it is in {0, 1, 2, 3}. This holds for every input and
whatever `stream` held before. -/
theorem bytes_and_counters_bounded (bits stream0 : Nat) (stdin : List Byte) :
    LUT.length = 1024 ∧ (∀ x ∈ LUT, x < 256) ∧ (∀ s b, lutGet LUT s b < 256) ∧
      (∀ b v, field b v < 4) ∧
      (∀ i (h : i < (doWhileTrace (decodeStep bits LUT) loopFuel
          (decodeInit bits stream0 stdin)).length),
        (∀ x ∈ ((doWhileTrace (decodeStep bits LUT) loopFuel
          (decodeInit bits stream0 stdin)).get ⟨i, h⟩).indegree, x < 256) ∧
        ∀ v, field ((((doWhileTrace (decodeStep bits LUT) loopFuel
          (decodeInit bits stream0 stdin)).get ⟨i, h⟩).indegree).getD (v >>> 2) 0) v < 4) ∧
      (∀ d, decode bits LUT stream0 stdin = .ok d →
        (∀ x ∈ d.indegree, x < 256) ∧ ∀ v, field (d.indegree.getD (v >>> 2) 0) v < 4) := by
  rw [LUT_eq]
  have h := decode_bytes_lt bits stream0 stdin
  exact ⟨length_lutTable, lutTable_lt, lutGet_lutTable_lt, field_lt,
    fun i hi => ⟨h.1 i hi, fun v => field_lt _ _⟩,
    fun d hd => ⟨h.2 d hd, fun v => field_lt _ _⟩⟩

/-! ## Sums of counters -/

theorem fieldSum_lutVal_le :
    ∀ s : Fin 4, ∀ b : Fin 256, fieldSum (lutVal s.val b.val) ≤ fieldSum b.val + 1 := by
  decide!

theorem sum_map_set_le (g : Nat → Nat) (l : List Nat) (k x : Nat) (hk : k < l.length)
    (hx : g x ≤ g (l.getD k 0) + 1) :
    ((l.set k x).map g).sum ≤ (l.map g).sum + 1 := by
  induction l generalizing k with
  | nil => simp at hk
  | cons a as ih =>
    cases k with
    | zero =>
      simp only [List.set_cons_zero, List.map_cons, List.sum_cons]
      simp only [List.getD_cons_zero] at hx
      omega
    | succ k =>
      simp only [List.set_cons_succ, List.map_cons, List.sum_cons]
      have := ih k (by simpa using hk) (by simpa using hx)
      omega

theorem counterSum_succ (l : List Nat) (n : Nat) :
    counterSum l (n + 1) = counterSum l n + field (l.getD (n >>> 2) 0) n := by
  unfold counterSum
  rw [List.range_succ, List.map_append, List.sum_append]
  simp

theorem field_add_four_mul (b n r : Nat) : field b (4 * n + r) = field b r := by
  unfold field
  have : (4 * n + r) % 4 = r % 4 := by omega
  rw [this]

theorem counterSum_four_mul (l : List Nat) (n : Nat) :
    counterSum l (4 * n) = ((List.range n).map fun i => fieldSum (l.getD i 0)).sum := by
  induction n with
  | zero => simp [counterSum]
  | succ n ih =>
    have e : 4 * (n + 1) = 4 * n + 1 + 1 + 1 + 1 := by omega
    rw [e, counterSum_succ, counterSum_succ, counterSum_succ, counterSum_succ, ih,
      List.range_succ, List.map_append, List.sum_append]
    have s0 : (4 * n) >>> 2 = n := by rw [Nat.shiftRight_eq_div_pow]; omega
    have s1 : (4 * n + 1) >>> 2 = n := by rw [Nat.shiftRight_eq_div_pow]; omega
    have s2 : (4 * n + 1 + 1) >>> 2 = n := by rw [Nat.shiftRight_eq_div_pow]; omega
    have s3 : (4 * n + 1 + 1 + 1) >>> 2 = n := by rw [Nat.shiftRight_eq_div_pow]; omega
    have f0 := field_add_four_mul (l.getD n 0) n 0
    have f1 := field_add_four_mul (l.getD n 0) n 1
    have f2 := field_add_four_mul (l.getD n 0) n 2
    have f3 := field_add_four_mul (l.getD n 0) n 3
    rw [s0, s1, s2, s3]
    simp only [Nat.add_zero] at f0
    have e2 : 4 * n + 1 + 1 = 4 * n + 2 := by omega
    have e3 : 4 * n + 1 + 1 + 1 = 4 * n + 3 := by omega
    rw [e2, e3, f0, f1, f2, f3]
    simp only [List.map_cons, List.map_nil, List.sum_cons, List.sum_nil, fieldSum]
    omega

theorem map_getD_range (l : List Nat) :
    (List.range l.length).map (fun i => l.getD i 0) = l := by
  apply List.ext_getElem
  · simp
  · intro i h1 h2
    simp [List.getD_eq_getElem?_getD, List.getElem?_eq_getElem h2]

theorem counterSum_eq_sum_map (l : List Nat) :
    counterSum l (4 * l.length) = (l.map fieldSum).sum := by
  rw [counterSum_four_mul]
  have : (List.range l.length).map (fun i => fieldSum (l.getD i 0))
      = ((List.range l.length).map (fun i => l.getD i 0)).map fieldSum := by
    rw [List.map_map]
    rfl
  rw [this, map_getD_range]

/-- The weighted bucket sizes `c1 + 2*c2 + 3*c3` are the sum of the counters. -/
theorem weighted_bucketCount (l : List Nat) (n : Nat) :
    bucketCount l n 1 + 2 * bucketCount l n 2 + 3 * bucketCount l n 3 = counterSum l n := by
  induction n with
  | zero => simp [bucketCount, counterSum]
  | succ n ih =>
    rw [counterSum_succ, ← ih]
    simp only [bucketCount_succ]
    have h := field_lt (l.getD (n >>> 2) 0) n
    generalize field (l.getD (n >>> 2) 0) n = f at h ⊢
    have h4 : f = 0 ∨ f = 1 ∨ f = 2 ∨ f = 3 := by omega
    rcases h4 with rfl | rfl | rfl | rfl <;> simp <;> omega

theorem four_mul_two_pow (bits : Nat) (hb : bits = 8 ∨ bits = 16 ∨ bits = 24 ∨ bits = 32) :
    4 * 2 ^ (bits - 2) = 2 ^ bits := by
  rcases hb with rfl | rfl | rfl | rfl <;> norm_num

/-- One store of the decode loop raises the sum of the four fields of the byte,
and so the sum of all counters, by at most 1. -/
theorem sum_bumped_le (indegree : List Nat) (stream : Nat) (hin : stream >>> 2 < indegree.length)
    (hlt : ∀ x ∈ indegree, x < 256) :
    ((bumped lutTable indegree stream).map fieldSum).sum ≤ (indegree.map fieldSum).sum + 1 := by
  unfold bumped
  apply sum_map_set_le fieldSum indegree _ _ hin
  have hb : indegree.getD (stream >>> 2) 0 < 256 := by
    rw [List.getD_eq_getElem?_getD, List.getElem?_eq_getElem hin]
    exact hlt _ (List.getElem_mem _)
  rw [lutGet_lutTable _ _ (Nat.mod_lt _ (by norm_num)) hb]
  exact fieldSum_lutVal_le ⟨stream % 4, Nat.mod_lt _ (by norm_num)⟩
    ⟨indegree.getD (stream >>> 2) 0, hb⟩

theorem countPhase_eq_ok (bits stream0 : Nat) (stdin : List Byte) (counts : List Nat)
    (h : countPhase bits stream0 stdin = .ok counts) :
    ∃ d, decode bits lutTable stream0 stdin = .ok d ∧ aggregate bits d.indegree = .ok counts := by
  rw [countPhase_eq] at h
  split at h
  · cases h
  · rename_i d hd
    split at h
    · cases h
    · rename_i c hc
      split at h
      · cases h
      · cases h
        exact ⟨d, hd, hc⟩

/-! ## Claim C18: the sum of the counters after `k` samples is at most `k` -/

theorem decode_sum_le (bits stream0 : Nat) (stdin : List Byte)
    (hb : bits = 8 ∨ bits = 16 ∨ bits = 24 ∨ bits = 32) :
    (∀ i (h : i < (doWhileTrace (decodeStep bits lutTable) loopFuel
        (decodeInit bits stream0 stdin)).length),
      counterSum ((doWhileTrace (decodeStep bits lutTable) loopFuel
        (decodeInit bits stream0 stdin)).get ⟨i, h⟩).indegree (2 ^ bits) ≤ i) ∧
      ∀ d, decode bits lutTable stream0 stdin = .ok d →
        d.indegree.length = 2 ^ (bits - 2) ∧ counterSum d.indegree (2 ^ bits) ≤ 2 ^ bits := by
  have h4 := four_mul_two_pow bits hb
  have hcs : ∀ l : List Nat, l.length = 2 ^ (bits - 2) →
      counterSum l (2 ^ bits) = (l.map fieldSum).sum := by
    intro l hl
    rw [← h4, ← hl]
    exact counterSum_eq_sum_map l
  have hstep : ∀ (s t : Dec) (c : Bool), decodeStep bits lutTable s = .ok (t, c) →
      s.indegree.length = 2 ^ (bits - 2) → (∀ x ∈ s.indegree, x < 256) →
      t.indegree.length = 2 ^ (bits - 2) ∧ (∀ x ∈ t.indegree, x < 256) ∧
        (t.indegree.map fieldSum).sum ≤ (s.indegree.map fieldSum).sum + 1 := by
    intro s t c h hl hlt
    obtain ⟨_, hin, ht, _, _⟩ := decodeStep_eq_ok bits lutTable s t c h
    rw [ht]
    exact ⟨by rw [length_bumped, hl], bumped_lt s.indegree t.stream hlt,
      sum_bumped_le s.indegree t.stream hin hlt⟩
  have key := doWhileTrace_any (decodeStep bits lutTable)
    (fun j d => d.state = j ∧ j < 2 ^ bits ∧ d.indegree.length = 2 ^ (bits - 2) ∧
      (∀ x ∈ d.indegree, x < 256) ∧ (d.indegree.map fieldSum).sum ≤ j)
    (fun d => d.indegree.length = 2 ^ (bits - 2) ∧ (d.indegree.map fieldSum).sum ≤ 2 ^ bits)
    (by
      rintro j s t ⟨hst, hj, hl, hlt, hsum⟩ h
      obtain ⟨_, _, _, hstate, hc⟩ := decodeStep_eq_ok bits lutTable s t true h
      rw [hst] at hstate hc
      obtain ⟨h1, h2⟩ := loopCond_true bits j hb hj hc.symm
      obtain ⟨a, b, c⟩ := hstep s t true h hl hlt
      exact ⟨by rw [hstate, h1], h2, a, b, by omega⟩)
    (by
      rintro j s t ⟨_, hj, hl, hlt, hsum⟩ h
      obtain ⟨a, _, c⟩ := hstep s t false h hl hlt
      exact ⟨a, by omega⟩)
    loopFuel 0 (decodeInit bits stream0 stdin)
    ⟨rfl, Nat.two_pow_pos bits, by simp [decodeInit],
      fun x hx => by
        have := List.eq_of_mem_replicate hx
        omega,
      by
        have h0 : fieldSum 0 = 0 := by decide
        simp [decodeInit, h0]⟩
  constructor
  · intro i h
    obtain ⟨_, _, hl, _, hsum⟩ := key.1 i h
    rw [hcs _ hl]
    simpa using hsum
  · intro d hd
    rw [decode_eq_doWhile bits lutTable stream0 stdin hb] at hd
    obtain ⟨hl, hsum⟩ := key.2 d hd
    exact ⟨hl, by rw [hcs _ hl]; exact hsum⟩

/-- C18: every table application raises the sum of the four fields of a byte by
at most 1; before iteration `i` of the decode loop (after `i` samples) the sum of
the counters of the `2^bits` nodes is at most `i`, and at most `2^bits` when the
loop has ended; hence a run that reaches the aggregation has
`counts[1] + 2*counts[2] + 3*counts[3] ≤ 2^bits`. This holds for every input and
whatever `stream` held before. -/
theorem counter_sum_le (bits stream0 : Nat) (stdin : List Byte)
    (hb : bits = 8 ∨ bits = 16 ∨ bits = 24 ∨ bits = 32) :
    (∀ s : Fin 4, ∀ b : Fin 256, fieldSum (lutGet LUT s.val b.val) ≤ fieldSum b.val + 1) ∧
      (∀ i (h : i < (doWhileTrace (decodeStep bits LUT) loopFuel
          (decodeInit bits stream0 stdin)).length),
        counterSum ((doWhileTrace (decodeStep bits LUT) loopFuel
          (decodeInit bits stream0 stdin)).get ⟨i, h⟩).indegree (2 ^ bits) ≤ i) ∧
      (∀ d, decode bits LUT stream0 stdin = .ok d →
        counterSum d.indegree (2 ^ bits) ≤ 2 ^ bits) ∧
      (∀ counts, countPhase bits stream0 stdin = .ok counts →
        counts.getD 1 0 + 2 * counts.getD 2 0 + 3 * counts.getD 3 0 ≤ 2 ^ bits) := by
  rw [LUT_eq]
  have h := decode_sum_le bits stream0 stdin hb
  refine ⟨?_, h.1, fun d hd => (h.2 d hd).2, ?_⟩
  · intro s b
    rw [lutGet_lutTable s.val b.val s.isLt b.isLt]
    exact fieldSum_lutVal_le s b
  · intro counts hc
    obtain ⟨d, hd, hagg⟩ := countPhase_eq_ok bits stream0 stdin counts hc
    obtain ⟨hl, hsum⟩ := h.2 d hd
    rw [aggregate_eq bits hb d.indegree (le_of_eq hl.symm)] at hagg
    cases hagg
    have := weighted_bucketCount d.indegree (2 ^ bits)
    simp only [tallied, List.getD_cons_zero, List.getD_cons_succ]
    omega

set_option maxRecDepth 100000 in
/-- Witness of `counter_sum_le`: `n = 8` on the all-zero input, where the run
ends with `counts = [255, 0, 0, 1]`. -/
theorem counter_sum_le_witness :
    (8 = 8 ∨ 8 = 16 ∨ 8 = 24 ∨ 8 = 32) ∧
      countPhase 8 0 scenarioA = .ok [255, 0, 0, 1] ∧
      ([255, 0, 0, 1] : List Nat).getD 1 0 + 2 * ([255, 0, 0, 1] : List Nat).getD 2 0
        + 3 * ([255, 0, 0, 1] : List Nat).getD 3 0 ≤ 2 ^ 8 :=
  have hc : countPhase 8 0 scenarioA = .ok [255, 0, 0, 1] := countPhase_scenarioA 0
  ⟨by decide, hc, (counter_sum_le 8 0 scenarioA (by decide)).2.2.2 [255, 0, 0, 1] hc⟩

/-! ## Claim C19: a sample touches one byte -/

theorem getD_set_ne (l : List Nat) (k x i : Nat) (h : i ≠ k) :
    (l.set k x).getD i 0 = l.getD i 0 := by
  simp [List.getD_eq_getElem?_getD, List.getElem?_set, Ne.symm h]

theorem bumped_frame (lut indegree : List Nat) (stream i : Nat) (h : i ≠ stream >>> 2) :
    (bumped lut indegree stream).getD i 0 = indegree.getD i 0 :=
  getD_set_ne _ _ _ _ h

theorem bumpedUpTo_untouched (bits : Nat) (lut : List Nat) (stdin : List Byte) (j i : Nat)
    (h : ∀ k, k < j → sampleAt bits stdin k >>> 2 ≠ i) :
    (bumpedUpTo bits lut stdin j).getD i 0 = 0 := by
  induction j with
  | zero =>
    simp only [bumpedUpTo, List.range_zero, List.map_nil, List.foldl_nil]
    rw [List.getD_eq_getElem?_getD]
    cases hg : (List.replicate (2 ^ (bits - 2)) 0)[i]? with
    | none => rfl
    | some x =>
      have := List.eq_of_mem_replicate (List.getElem?_mem hg)
      simp [this]
  | succ j ih =>
    rw [bumpedUpTo_succ, bumped_frame _ _ _ _ (fun e => h j (by omega) e.symm)]
    exact ih (fun k hk => h k (by omega))

theorem field_zero (v : Nat) : field 0 v = 0 := by
  simp [field]

/-- Every zero byte contributes its four nodes to bucket 0. -/
theorem bucketCount_zero_ge (l : List Nat) (n : Nat) :
    4 * ((List.range n).filter fun i => l.getD i 0 = 0).length ≤ bucketCount l (4 * n) 0 := by
  induction n with
  | zero => simp
  | succ n ih =>
    have e : 4 * (n + 1) = 4 * n + 1 + 1 + 1 + 1 := by omega
    rw [e, bucketCount_succ, bucketCount_succ, bucketCount_succ, bucketCount_succ,
      List.range_succ, List.filter_append, List.length_append]
    have s0 : (4 * n) >>> 2 = n := by rw [Nat.shiftRight_eq_div_pow]; omega
    have s1 : (4 * n + 1) >>> 2 = n := by rw [Nat.shiftRight_eq_div_pow]; omega
    have s2 : (4 * n + 1 + 1) >>> 2 = n := by rw [Nat.shiftRight_eq_div_pow]; omega
    have s3 : (4 * n + 1 + 1 + 1) >>> 2 = n := by rw [Nat.shiftRight_eq_div_pow]; omega
    rw [s0, s1, s2, s3]
    by_cases hz : l.getD n 0 = 0
    · rw [hz]
      simp only [field_zero, if_true]
      have : (List.filter (fun i => decide (l.getD i 0 = 0)) [n]).length = 1 := by
        rw [List.filter_cons_of_pos (by simpa using hz)]
        rfl
      omega
    · have : (List.filter (fun i => decide (l.getD i 0 = 0)) [n]).length = 0 := by
        rw [List.filter_cons_of_neg (by simpa using hz)]
        rfl
      omega

theorem untouched_length_le (bits : Nat) (lut : List Nat) (stdin : List Byte) :
    (untouched bits stdin).length
      ≤ ((List.range (2 ^ (bits - 2))).filter fun i =>
          (bumpedUpTo bits lut stdin (2 ^ bits)).getD i 0 = 0).length := by
  unfold untouched
  rw [← List.countP_eq_length_filter, ← List.countP_eq_length_filter]
  apply List.countP_mono_left
  intro i _ hi
  simp only [List.all_eq_true, List.mem_range, bne_iff_ne, ne_eq] at hi
  simp only [decide_eq_true_eq]
  exact bumpedUpTo_untouched bits lut stdin _ i (fun k hk => hi k hk)

theorem mem_untouched (bits : Nat) (stdin : List Byte) (i : Nat) (h : i ∈ untouched bits stdin) :
    ∀ k, k < 2 ^ bits → sampleAt bits stdin k >>> 2 ≠ i := by
  unfold untouched at h
  simp only [List.mem_filter, List.all_eq_true, List.mem_range, bne_iff_ne, ne_eq] at h
  exact fun k hk => h.2 k hk

/-- C19: a store of the decode loop changes only the byte at index `stream >> 2`;
an iteration that processes the sample `s` leaves every byte of index other than
`s >> 2` as it was; and in a run that reaches the end of the counting phase the
samples processed are those of the input, every byte that no sample targets is
still 0 when the decode loop has ended, and `counts[0]` is at least 4 times the
number of such bytes. -/
theorem sample_touches_one_byte (bits stream0 : Nat) (stdin : List Byte)
    (hb : bits = 8 ∨ bits = 16 ∨ bits = 24 ∨ bits = 32) (h32 : stream0 < 2 ^ 32) :
    (∀ lut indegree stream a, bump lut indegree stream = .ok a →
        a.length = indegree.length ∧
        ∀ i, i ≠ stream >>> 2 → a.getD i 0 = indegree.getD i 0) ∧
      (∀ d t c, decodeStep bits LUT d = .ok (t, c) →
        t.indegree.length = d.indegree.length ∧
        ∀ i, i ≠ t.stream >>> 2 → t.indegree.getD i 0 = d.indegree.getD i 0) ∧
      (∀ counts, countPhase bits stream0 stdin = .ok counts →
        ∃ d, decode bits LUT stream0 stdin = .ok d ∧
          (∀ i (h : i + 1 < (doWhileTrace (decodeStep bits LUT) loopFuel
              (decodeInit bits stream0 stdin)).length),
            ((doWhileTrace (decodeStep bits LUT) loopFuel
              (decodeInit bits stream0 stdin)).get ⟨i + 1, h⟩).stream = sampleAt bits stdin i) ∧
          d.stream = sampleAt bits stdin (2 ^ bits - 1) ∧
          (∀ i, i ∈ untouched bits stdin → d.indegree.getD i 0 = 0) ∧
          4 * (untouched bits stdin).length ≤ counts.getD 0 0) := by
  refine ⟨?_, ?_, ?_⟩
  · intro lut indegree stream a h
    obtain ⟨_, rfl⟩ := bump_eq_ok lut indegree stream a h
    exact ⟨length_bumped _ _ _, fun i hi => bumped_frame _ _ _ _ hi⟩
  · intro d t c h
    obtain ⟨_, _, ht, _, _⟩ := decodeStep_eq_ok bits LUT d t c h
    rw [ht]
    exact ⟨length_bumped _ _ _, fun i hi => bumped_frame _ _ _ _ hi⟩
  · intro counts hc
    obtain ⟨hs, hlen, hcounts⟩ := countPhase_ok_closed bits stream0 stdin counts hb h32 hc
    have htr := decode_trace bits LUT stream0 stdin hb hs hlen
    refine ⟨decodeEnd bits LUT stdin, decode_ok bits LUT stream0 stdin hb hs hlen, ?_, rfl, ?_, ?_⟩
    · intro i h
      have := (htr.2 (i + 1) h).2.2.2
      simpa using this
    · intro i hi
      exact bumpedUpTo_untouched bits LUT stdin _ i (mem_untouched bits stdin i hi)
    · rw [hcounts]
      simp only [tallied, List.getD_cons_zero]
      have h1 := untouched_length_le bits lutTable stdin
      have h2 := bucketCount_zero_ge (bumpedUpTo bits lutTable stdin (2 ^ bits)) (2 ^ (bits - 2))
      rw [four_mul_two_pow bits hb] at h2
      omega

set_option maxRecDepth 100000 in
/-- Witness of `sample_touches_one_byte`: `n = 8` on the all-zero input, where
the 63 bytes of index 1 to 63 are never targeted and `counts[0] = 255`. -/
theorem sample_touches_one_byte_witness :
    (8 = 8 ∨ 8 = 16 ∨ 8 = 24 ∨ 8 = 32) ∧ 0 < 2 ^ 32 ∧
      (untouched 8 scenarioA).length = 63 ∧
      ∃ d, decode 8 LUT 0 scenarioA = .ok d ∧
        (∀ i, i ∈ untouched 8 scenarioA → d.indegree.getD i 0 = 0) ∧
        4 * (untouched 8 scenarioA).length ≤ ([255, 0, 0, 1] : List Nat).getD 0 0 :=
  have hc : countPhase 8 0 scenarioA = .ok [255, 0, 0, 1] := countPhase_scenarioA 0
  have h := (sample_touches_one_byte 8 0 scenarioA (by decide) (by decide)).2.2 [255, 0, 0, 1] hc
  ⟨by decide, by decide, by decide!,
    h.elim fun d hd => ⟨d, hd.1, hd.2.2.2.1, hd.2.2.2.2⟩⟩

/-! ## Claims C11 and C20 -/

/-- With the unwritten bytes of `stream` zero and `2^bits` samples on the input,
the decode loop runs `2^bits` iterations, `state` taking the values
`0, …, 2^bits - 1` and iteration `i` starting with `i` samples consumed; it ends
with exactly `2^bits` samples consumed and `state = 2^bits mod 2^32`. For every
array of `2^(bits-2)` bytes the aggregation loop runs `2^bits` iterations,
`state` taking each value `0, …, 2^bits - 1` once, and ends with
`state = 2^bits mod 2^32`, which is 0 for `bits = 32`. -/
theorem loops_iterate (bits stream0 : Nat) (stdin : List Byte) (indegree : List Nat)
    (hb : bits = 8 ∨ bits = 16 ∨ bits = 24 ∨ bits = 32)
    (hs : bits = 16 ∨ bits = 24 → stream0 < 2 ^ bits)
    (hlen : 2 ^ bits * (bits / 8) ≤ stdin.length)
    (hind : indegree.length = 2 ^ (bits - 2)) :
    (doWhileTrace (decodeStep bits LUT) loopFuel (decodeInit bits stream0 stdin)).length
        = 2 ^ bits ∧
      (doWhileTrace (decodeStep bits LUT) loopFuel (decodeInit bits stream0 stdin)).map
          (fun d => d.state) = List.range (2 ^ bits) ∧
      (doWhileTrace (decodeStep bits LUT) loopFuel (decodeInit bits stream0 stdin)).map
          (fun d => d.stdin) = (List.range (2 ^ bits)).map (fun i => stdin.drop (i * (bits / 8))) ∧
      (∃ d, decode bits LUT stream0 stdin = .ok d ∧ d.state = u32 (2 ^ bits) ∧
        d.stdin = stdin.drop (2 ^ bits * (bits / 8))) ∧
      (doWhileTrace (aggStep bits indegree) loopFuel (0, [0, 0, 0, 0])).length = 2 ^ bits ∧
      (doWhileTrace (aggStep bits indegree) loopFuel (0, [0, 0, 0, 0])).map Prod.fst
        = List.range (2 ^ bits) ∧
      (∃ counts, doWhile (aggStep bits indegree) loopFuel (0, [0, 0, 0, 0])
        = .ok (u32 (2 ^ bits), counts)) ∧
      u32 (2 ^ 32) = 0 := by
  have hd := decode_trace bits LUT stream0 stdin hb hs hlen
  have ha := aggregate_trace bits indegree hb (le_of_eq hind.symm)
  refine ⟨hd.1, ?_, ?_, ⟨_, decode_ok bits LUT stream0 stdin hb hs hlen, rfl, rfl⟩,
    ha.1, ha.2.1, ⟨_, ha.2.2⟩, by decide⟩
  · apply map_eq_range_of_get _ _ _ hd.1
    intro i hi
    exact (hd.2 i hi).1
  · apply List.ext_getElem
    · simp [hd.1]
    · intro i h1 h2
      have hi : i < (doWhileTrace (decodeStep bits LUT) loopFuel
          (decodeInit bits stream0 stdin)).length := by simpa using h1
      have := (hd.2 i hi).2.1
      simp only [List.getElem_map, List.getElem_range]
      simpa [sampleSize] using this

/-- C11, evaluated on the code: for `n = 24`, on an input of `2^24 * 3` bytes
(all zero) with `stream` holding `0xFF000000` before the first read, the decode
loop does not run `2^24` iterations: the first read, of the bytes `0, 0, 0`,
leaves `stream = 0xFF000000`, and the only iteration is the first, which stops on
the access `indegree[0x3FC00000]`, about 1 GiB past the `2^22` bytes of the
array. -/
theorem decode_single_iteration :
    (List.replicate 50331648 (0 : Byte)).length = 2 ^ 24 * (24 / 8) ∧
      (List.replicate 50331648 (0 : Byte)).take 3 = [0, 0, 0] ∧
      readSample 24 0xFF000000 [0, 0, 0] = (1, 0xFF000000, []) ∧
      0xFF000000 >>> 2 = 0x3FC00000 ∧ 2 ^ (24 - 2) + 2 ^ 30 - 2 ^ 23 ≤ 0x3FC00000 ∧
      doWhileTrace (decodeStep 24 LUT) loopFuel
          (decodeInit 24 0xFF000000 (List.replicate 50331648 0))
        = [decodeInit 24 0xFF000000 (List.replicate 50331648 0)] ∧
      decode 24 LUT 0xFF000000 (List.replicate 50331648 0) = .error .outOfBounds := by
  have hl : (List.replicate 50331648 (0 : Byte)).length = 50331648 := List.length_replicate _ _
  have h := decode_high_bytes 24 LUT 0xFF000000 (List.replicate 50331648 0) (Or.inr rfl)
    (by decide) (by decide)
  have ht : (List.replicate 50331648 (0 : Byte)).take 3 = [0, 0, 0] := by
    rw [List.take_replicate]
    rfl
  exact ⟨by rw [hl]; norm_num, ht, by decide, by decide, by decide, h.2.1,
    h.2.2 (by rw [hl]; decide)⟩

/-- C20, evaluated on the code: for `n = 24` the array has `2^22` bytes; when
`stream` holds `0x1000000` before the read of the bytes `1, 2, 3`, the read
succeeds, the sample is `0x1030201` and the index `stream >> 2` is `0x40c080`,
which is not below `2^22 = 0x400000`: the access of line 107 is out of bounds. -/
theorem decodeStep_index_out_of_range :
    (decodeInit 24 0x1000000 [1, 2, 3]).indegree.length = 2 ^ 22 ∧
      readSample 24 0x1000000 [1, 2, 3] = (1, 0x1030201, []) ∧
      0x1030201 >>> 2 = 0x40c080 ∧ ¬ (0x40c080 < 2 ^ 22) ∧
      decodeStep 24 LUT (decodeInit 24 0x1000000 [1, 2, 3]) = .error .outOfBounds := by
  have hlen : (decodeInit 24 0x1000000 [1, 2, 3]).indegree.length = 2 ^ 22 :=
    List.length_replicate _ _
  refine ⟨hlen, by decide, by decide, by decide, ?_⟩
  exact decodeStep_outOfBounds 24 LUT _ 0x1030201 [] (by decide) (by rw [hlen]; decide)

/-- With the unwritten bytes of `stream` zero, every access of a run is in
bounds: the decode index is below `2^(bits-2)`, the table is read at a row below
4 and a column below 256, the aggregation index is below `2^(bits-2)`, the
bucket index is below 4 and the row of `empirical_limits` is at most 3. -/
theorem accesses_in_bounds (bits stream0 : Nat) (stdin : List Byte)
    (hb : bits = 8 ∨ bits = 16 ∨ bits = 24 ∨ bits = 32)
    (hs : bits = 16 ∨ bits = 24 → stream0 < 2 ^ bits)
    (hlen : 2 ^ bits * (bits / 8) ≤ stdin.length) :
    (∀ i, i < 2 ^ bits → sampleAt bits stdin i >>> 2 < 2 ^ (bits - 2) ∧
      sampleAt bits stdin i % 4 < 4 ∧
      (bumpedUpTo bits LUT stdin i).getD (sampleAt bits stdin i >>> 2) 0 < 256) ∧
      (∀ v, v < 2 ^ bits → v >>> 2 < 2 ^ (bits - 2)) ∧ (∀ b v, field b v < 4) ∧
      bits / 8 - 1 ≤ 3 ∧ (∃ counts, countPhase bits stream0 stdin = .ok counts) := by
  refine ⟨?_, fun v hv => shiftRight_two_lt v bits (by omega) hv, field_lt, by omega,
    ⟨_, countPhase_ok bits stream0 stdin hb hs hlen⟩⟩
  intro i _
  refine ⟨shiftRight_two_lt _ bits (by omega) (sampleAt_lt bits hb stdin i),
    Nat.mod_lt _ (by norm_num), ?_⟩
  have hlt : ∀ j, ∀ x ∈ bumpedUpTo bits lutTable stdin j, x < 256 := by
    intro j
    induction j with
    | zero =>
      intro x hx
      have := List.eq_of_mem_replicate hx
      omega
    | succ j ih =>
      rw [bumpedUpTo_succ]
      exact bumped_lt _ _ ih
  rw [LUT_eq, List.getD_eq_getElem?_getD]
  cases hg : (bumpedUpTo bits lutTable stdin i)[sampleAt bits stdin i >>> 2]? with
  | none => simp
  | some x =>
    simp only [Option.getD_some]
    exact hlt i x (List.getElem?_mem hg)

end Artemisia
